import Mathlib

set_option maxHeartbeats 1000000

/-!
Verification model of the `Chi2ContingencyImputer` from `general_settings.py`.

Tables are modelled column-wise: every column is categorical (pandas
`object` dtype), each entry either a category label (`some s`) or the
missing marker NaN (`none`).  Row identity is positional.

The scipy collaborator `stats.chi2_contingency` is modelled over exact
rationals: the continuous chi-square survival function is an abstract
parameter `sf`, while the discrete control flow (zero expected
frequencies, zero degrees of freedom, Yates continuity correction for
one degree of freedom) follows the scipy implementation.
-/

abbrev Val := Option String

structure Col where
  name : String
  vals : List Val
deriving DecidableEq

abbrev Table := List Col

def Table.colNames (t : Table) : List String := t.map Col.name

def Table.getCol (t : Table) (c : String) : Option (List Val) :=
  (t.find? (fun col => col.name == c)).map Col.vals

def Table.setCol (t : Table) (c : String) (vs : List Val) : Table :=
  t.map (fun col => if col.name = c then ⟨col.name, vs⟩ else col)

def Table.dropCol (t : Table) (c : String) : Table :=
  t.filter (fun col => !(col.name == c))

def Table.renameCol (t : Table) (c c' : String) : Table :=
  t.map (fun col => if col.name = c then ⟨c', col.vals⟩ else col)

/-- A DataFrame always has the same number of rows in every column. -/
def UniformTable (t : Table) (n : ℕ) : Prop := ∀ col ∈ t, col.vals.length = n

instance (t : Table) (n : ℕ) : Decidable (UniformTable t n) := by
  unfold UniformTable; infer_instance

/-- Code-point lexicographic order on strings (Python's string order). -/
def charsLeB : List Char → List Char → Bool
  | [], _ => true
  | _ :: _, [] => false
  | x :: xs, y :: ys =>
    if x.toNat < y.toNat then true else if y.toNat < x.toNat then false else charsLeB xs ys

def strLeB (a b : String) : Bool := charsLeB a.data b.data

def insertLe (le : α → α → Bool) (x : α) : List α → List α
  | [] => [x]
  | y :: ys => if le x y then x :: y :: ys else y :: insertLe le x ys

def sortLe (le : α → α → Bool) : List α → List α
  | [] => []
  | x :: xs => insertLe le x (sortLe le xs)

/-- Ascending sort (pandas sorts string labels lexicographically). -/
def sortStrings (l : List String) : List String := sortLe strLeB l

def sortDedup (l : List String) : List String := sortStrings l.dedup

/-- Distinct group keys of a column under `groupby(..., dropna=False)`:
sorted ascending, the NaN group last. -/
def sortKeys (l : List Val) : List Val :=
  (sortDedup (l.filterMap id)).map some ++ if none ∈ l then [none] else []

/-- Rows retained by `pd.crosstab`: both entries non-missing. -/
def jointPairs (c1 c2 : List Val) : List (String × String) :=
  (c1.zip c2).filterMap (fun p =>
    match p.1, p.2 with
    | some a, some b => some (a, b)
    | _, _ => none)

/-- `pd.crosstab(X[var1], X[var2])` as a count matrix; row labels are the
distinct non-missing values of `c1`, column labels those of `c2`.
(The label sort order does not influence the chi-square statistic.) -/
def crosstab (c1 c2 : List Val) : List (List ℕ) :=
  let j := jointPairs c1 c2
  (sortDedup (j.map Prod.fst)).map (fun a =>
    (sortDedup (j.map Prod.snd)).map (fun b => j.count (a, b)))

def signQ (q : ℚ) : ℚ := if q < 0 then -1 else if q = 0 then 0 else 1

/-- `scipy.stats.chi2_contingency` on a count matrix, with the chi-square
survival function abstracted as `sf`.  A zero marginal makes an expected
frequency zero, which scipy reports as a `ValueError`; a size-0 observed
array raises `ValueError("No data; observed has size 0.")`; a nonempty
table with a degenerate dimension has zero degrees of freedom and p-value
1.0; with one degree of freedom Yates' continuity correction is applied
(magnitude clipped at the observed-expected difference). -/
def chi2ContingencyP (sf : ℚ → ℕ → ℚ) (obs : List (List ℕ)) : Except String ℚ :=
  let n := obs.length
  let m := (obs.headD []).length
  let rowSums := obs.map List.sum
  let colSums := (List.range m).map (fun j => (obs.map (fun row => row.getD j 0)).sum)
  let total : ℕ := rowSums.sum
  if n = 0 then .error "No data; observed has size 0."
  else if rowSums.any (· == 0) || colSums.any (· == 0) then
    .error "zero expected frequency"
  else
    let dof := (n - 1) * (m - 1)
    if dof = 0 then .ok 1
    else
      let expQ : ℕ → ℕ → ℚ := fun i j =>
        ((rowSums.getD i 0 : ℚ) * (colSums.getD j 0 : ℚ)) / (total : ℚ)
      let obsQ : ℕ → ℕ → ℚ := fun i j => ((obs.getD i []).getD j 0 : ℚ)
      let adj : ℕ → ℕ → ℚ := fun i j =>
        if dof = 1 then obsQ i j + signQ (expQ i j - obsQ i j) * min (1/2) |expQ i j - obsQ i j|
        else obsQ i j
      let stat : ℚ := ((List.range n).map (fun i =>
        ((List.range m).map (fun j => (adj i j - expQ i j) ^ 2 / expQ i j)).sum)).sum
      .ok (sf stat dof)

/-- `itertools.product(cat_features, cat_features)`. -/
def listProd (a b : List String) : List (String × String) :=
  a.flatMap (fun x => b.map (fun y => (x, y)))

/-- The `results` list built by `_calculate_most_related_variables`:
one `(var1, var2, pvalue)` row per ordered pair of distinct columns, in
generation order; an exception from scipy or a missing column aborts. -/
def pairResults (sf : ℚ → ℕ → ℚ) (X : Table) :
    List (String × String) → Except String (List (String × String × ℚ))
  | [] => .ok []
  | (v1, v2) :: rest =>
    if v1 = v2 then pairResults sf X rest
    else
      match X.getCol v1, X.getCol v2 with
      | some c1, some c2 =>
        match chi2ContingencyP sf (crosstab c1 c2) with
        | .error e => .error e
        | .ok p => (pairResults sf X rest).map (fun rs => (v1, v2, p) :: rs)
      | _, _ => .error "KeyError"

/-- `groupby("var1")["pvalue"].idxmin()` within one group: the first row
attaining the minimal p-value (pandas `idxmin` keeps the first minimum). -/
def firstMinBy : List (String × String × ℚ) → Option (String × String × ℚ)
  | [] => none
  | r :: rest =>
    match firstMinBy rest with
    | none => some r
    | some m => if r.2.2 ≤ m.2.2 then some r else some m

def minPval : List (String × String × ℚ) → Option ℚ
  | [] => none
  | r :: rest =>
    match minPval rest with
    | none => some r.2.2
    | some q => some (min r.2.2 q)

def groupOf (rs : List (String × String × ℚ)) (a : String) : List (String × String × ℚ) :=
  rs.filter (fun r => r.1 == a)

/-- `related_vars.iloc[min_ids, :2]`: groupby sorts the `var1` keys, and per
key the first row with minimal p-value is selected. -/
def relatedVars (rs : List (String × String × ℚ)) : List (String × String) :=
  (sortDedup (rs.map (fun r => r.1))).filterMap
    (fun a => (firstMinBy (groupOf rs a)).map (fun r => (r.1, r.2.1)))

def calculateMostRelatedVariables (sf : ℚ → ℕ → ℚ) (X : Table) (catFeats : List String) :
    Except String (List (String × String)) :=
  (pairResults sf X (listProd catFeats catFeats)).map relatedVars

/-- `pd.Series.mode()`: drops NaN, returns all values of maximal count,
sorted ascending. -/
def seriesMode (g : List Val) : List String :=
  let s := g.filterMap id
  let mx := (s.dedup.map (fun v => s.count v)).foldr max 0
  sortStrings (s.dedup.filter (fun v => s.count v == mx))

/-- `lambda g: g.mode().iloc[0] if not g.mode().empty else None`. -/
def groupMode (g : List Val) : Val := (seriesMode g).head?

/-- Target values of the rows whose driver value equals `k`, in row order. -/
def groupExtract (t d : List Val) (k : Val) : List Val :=
  (t.zip d).filterMap (fun p => if p.2 = k then some p.1 else none)

/-- The modes frame of `X.groupby(var2, dropna=False)[var1].agg(...)`:
one entry per distinct driver value (NaN retained), mapping it to the
group's mode of the target. -/
def modesFor (t d : List Val) : List (Val × Val) :=
  (sortKeys d).map (fun k => (k, groupMode (groupExtract t d k)))

def getAllModes (X : Table) :
    List (String × String) → Except String (List (String × String × List (Val × Val)))
  | [] => .ok []
  | (v1, v2) :: rest =>
    match X.getCol v2, X.getCol v1 with
    | some d, some t => (getAllModes X rest).map (fun ms => (v1, v2, modesFor t d) :: ms)
    | _, _ => .error "KeyError"

/-- `np.setdiff1d(a, b)`: elements of `a` not in `b`, deduplicated and
sorted ascending; names in `b` absent from `a` are silently ignored. -/
def npSetdiff1d (a b : List String) : List String :=
  sortDedup (a.filter (fun x => !(b.contains x)))

/-- `X.select_dtypes(include="object").columns`, minus the ignore set when
one is given.  In this model every column is categorical. -/
def catFeatures (X : Table) (ignore : Option (List String)) : List String :=
  match ignore with
  | none => X.colNames
  | some b => npSetdiff1d X.colNames b

structure Fitted where
  related_vars_ : List (String × String)
  all_modes_ : List (String × String × List (Val × Val))
deriving DecidableEq

def fit (sf : ℚ → ℕ → ℚ) (ignore : Option (List String)) (X : Table) : Except String Fitted :=
  match calculateMostRelatedVariables sf X (catFeatures X ignore) with
  | .error e => .error e
  | .ok rv =>
    match getAllModes X rv with
    | .error e => .error e
    | .ok am => .ok ⟨rv, am⟩

/-- Left-merge lookup of a driver value in the modes frame: an unmatched
key yields NaN (pandas merges NaN keys with NaN keys). -/
def modeLookup (modes : List (Val × Val)) (k : Val) : Val :=
  match modes.lookup k with
  | some v => v
  | none => none

/-- `fillna`: keep a present value, otherwise take the mode column entry. -/
def orFill (a m : Val) : Val :=
  match a with
  | some x => some x
  | none => m

/-- One iteration of the `transform` loop:
`Xc = Xc.merge(modes, on=var2, how="left")`,
`Xc[var1] = Xc[var1].fillna(Xc["Mode_var1"])`,
`Xc = Xc.drop("Mode_var1", axis=1)`.
A missing merge key or missing target column raises a KeyError; when the
table already owns a column named `Mode_var1`, the merge suffixes both
copies and the subsequent `Xc["Mode_var1"]` lookup raises a KeyError. -/
def transformPair (v1 v2 : String) (modes : List (Val × Val)) (Xc : Table) : Except String Table :=
  match Xc.getCol v2 with
  | none => .error v2
  | some ks =>
    let mc := "Mode_" ++ v1
    let mcol : Col := ⟨mc, ks.map (modeLookup modes)⟩
    let X1 := if mc ∈ Xc.colNames
      then Xc.renameCol mc (mc ++ "_x") ++ [⟨mc ++ "_y", mcol.vals⟩]
      else Xc ++ [mcol]
    match X1.getCol v1 with
    | none => .error v1
    | some tv =>
      match X1.getCol mc with
      | none => .error mc
      | some mv =>
        let X2 := X1.setCol v1 (tv.zipWith orFill mv)
        .ok (X2.dropCol mc)

/-- The local state of the `transform` body: the caller's table `X` and the
working copy `Xc` (or the raised exception). -/
structure TState where
  Xin : Table
  cur : Except String Table

def transformStep (s : TState) (pr : String × String × List (Val × Val)) : TState :=
  ⟨s.Xin, s.cur.bind (transformPair pr.1 pr.2.1 pr.2.2)⟩

/-- `Xc = X.copy()` followed by the loop over `all_modes_`; every statement
writes only `Xc`.  (The final `Xc.index = X.index` reads `X`; row identity
is positional in this model.) -/
def transformRun (st : Fitted) (X : Table) : TState :=
  st.all_modes_.foldl transformStep ⟨X, .ok X⟩

def transform (st : Fitted) (X : Table) : Except String Table :=
  (transformRun st X).cur

/-- One fill step reading the driver keys from the current working table,
with no materialised mode column. -/
def fillPair (v1 v2 : String) (modes : List (Val × Val)) (Xc : Table) : Except String Table :=
  match Xc.getCol v2 with
  | none => .error v2
  | some ks =>
    match Xc.getCol v1 with
    | none => .error v1
    | some tv => .ok (Xc.setCol v1 (tv.zipWith orFill (ks.map (modeLookup modes))))

/-- `transform` re-expressed as a plain sequential fill over the working
copy: each pair's driver values are the current ones, including values
freshly filled by earlier pairs. -/
def transformSeq (st : Fitted) (X : Table) : Except String Table :=
  st.all_modes_.foldl (fun acc pr => acc.bind (fillPair pr.1 pr.2.1 pr.2.2)) (.ok X)

/-- Modelled from the spec: "imputation is single-pass — a freshly-filled
target value is never itself used as a driver value for imputing a
different column in the same `transform` call"; the driver values of every
pair are read from the original input table `X`. -/
def singlePassFill (X : Table) (v1 v2 : String) (modes : List (Val × Val)) (Xc : Table) :
    Except String Table :=
  match X.getCol v2 with
  | none => .error v2
  | some ks =>
    match Xc.getCol v1 with
    | none => .error v1
    | some tv => .ok (Xc.setCol v1 (tv.zipWith orFill (ks.map (modeLookup modes))))

def singlePassTransform (st : Fitted) (X : Table) : Except String Table :=
  st.all_modes_.foldl (fun acc pr => acc.bind (singlePassFill X pr.1 pr.2.1 pr.2.2)) (.ok X)

/-- Modelled from the spec: "ties in mode frequency broken by
first-encountered value in the group's natural (table) row order". -/
def firstTiedMode (g : List Val) : Val :=
  let s := g.filterMap id
  let mx := (s.dedup.map (fun v => s.count v)).foldr max 0
  s.find? (fun v => s.count v == mx)

/-! ### Order properties of the code-point comparison and the sort -/

theorem charsLeB_total : ∀ xs ys : List Char, charsLeB xs ys = true ∨ charsLeB ys xs = true := by
  intro xs
  induction xs with
  | nil => intro ys; left; rfl
  | cons x xs ih =>
    intro ys
    cases ys with
    | nil => right; rfl
    | cons y ys =>
      rcases Nat.lt_trichotomy x.toNat y.toNat with h | h | h
      · left; simp [charsLeB, h]
      · have h1 : ¬ x.toNat < y.toNat := by omega
        have h2 : ¬ y.toNat < x.toNat := by omega
        rcases ih ys with h3 | h3
        · left; simp [charsLeB, h1, h2, h3]
        · right; simp [charsLeB, h1, h2, h3]
      · right; simp [charsLeB, h]

theorem charsLeB_trans : ∀ xs ys zs : List Char,
    charsLeB xs ys = true → charsLeB ys zs = true → charsLeB xs zs = true := by
  intro xs
  induction xs with
  | nil => intro ys zs _ _; rfl
  | cons x xs ih =>
    intro ys zs hab hbc
    cases ys with
    | nil => simp [charsLeB] at hab
    | cons y ys =>
      cases zs with
      | nil => simp [charsLeB] at hbc
      | cons z zs =>
        by_cases h1 : x.toNat < y.toNat
        · by_cases h2 : y.toNat < z.toNat
          · have h3 : x.toNat < z.toNat := by omega
            simp [charsLeB, h3]
          · by_cases h3 : z.toNat < y.toNat
            · simp [charsLeB, h2, h3] at hbc
            · have h4 : x.toNat < z.toNat := by omega
              simp [charsLeB, h4]
        · by_cases h4 : y.toNat < x.toNat
          · simp [charsLeB, h1, h4] at hab
          · have hxy : x.toNat = y.toNat := by omega
            simp only [charsLeB, h1, h4, if_false] at hab
            by_cases h2 : y.toNat < z.toNat
            · have h5 : x.toNat < z.toNat := by omega
              simp [charsLeB, h5]
            · by_cases h3 : z.toNat < y.toNat
              · simp [charsLeB, h2, h3] at hbc
              · have h5 : ¬ x.toNat < z.toNat := by omega
                have h6 : ¬ z.toNat < x.toNat := by omega
                simp only [charsLeB, h2, h3, if_false] at hbc
                simp only [charsLeB, h5, h6, if_false]
                exact ih ys zs hab hbc

theorem strLeB_total (a b : String) : strLeB a b = true ∨ strLeB b a = true :=
  charsLeB_total a.data b.data

theorem strLeB_trans {a b c : String} (h1 : strLeB a b = true) (h2 : strLeB b c = true) :
    strLeB a c = true :=
  charsLeB_trans a.data b.data c.data h1 h2

theorem insertLe_perm (le : α → α → Bool) (x : α) :
    ∀ l : List α, (insertLe le x l).Perm (x :: l) := by
  intro l
  induction l with
  | nil => exact List.Perm.refl _
  | cons y ys ih =>
    by_cases h : le x y = true
    · simp [insertLe, h]
    · simp only [insertLe, h, if_false]
      exact (ih.cons y).trans (List.Perm.swap x y ys)

theorem sortLe_perm (le : α → α → Bool) : ∀ l : List α, (sortLe le l).Perm l := by
  intro l
  induction l with
  | nil => exact List.Perm.refl _
  | cons x xs ih => exact (insertLe_perm le x (sortLe le xs)).trans (ih.cons x)

theorem mem_sortLe {le : α → α → Bool} {l : List α} {a : α} :
    a ∈ sortLe le l ↔ a ∈ l :=
  (sortLe_perm le l).mem_iff

theorem mem_sortDedup {l : List String} {a : String} : a ∈ sortDedup l ↔ a ∈ l := by
  unfold sortDedup sortStrings
  rw [mem_sortLe, List.mem_dedup]

theorem nodup_sortDedup (l : List String) : (sortDedup l).Nodup :=
  ((sortLe_perm strLeB l.dedup).nodup_iff).mpr l.nodup_dedup

/-- The head of an insertion sort under a total transitive comparison is a
least element. -/
theorem sortLe_head_le {le : α → α → Bool}
    (htot : ∀ a b, le a b = true ∨ le b a = true)
    (htrans : ∀ {a b c}, le a b = true → le b c = true → le a c = true) :
    ∀ l x t, sortLe le l = x :: t → ∀ y ∈ x :: t, le x y = true := by
  intro l
  induction l with
  | nil => intro x t h; simp [sortLe] at h
  | cons a l' ih =>
    intro x t h y hy
    have hrefl : ∀ z : α, le z z = true := fun z => (htot z z).elim id id
    simp only [sortLe] at h
    cases hs : sortLe le l' with
    | nil =>
      rw [hs] at h
      simp only [insertLe] at h
      injection h with h1 h2
      subst h1; subst h2
      simp only [List.mem_singleton] at hy
      subst hy
      exact hrefl _
    | cons h' t' =>
      rw [hs] at h
      have ihh := ih h' t' hs
      by_cases hah : le a h' = true
      · simp only [insertLe, hah, if_true] at h
        injection h with h1 h2
        subst h1; subst h2
        rcases List.mem_cons.mp hy with rfl | hy'
        · exact hrefl _
        · exact htrans hah (ihh y hy')
      · simp only [insertLe, hah, if_false] at h
        injection h with h1 h2
        subst h1; subst h2
        rcases List.mem_cons.mp hy with rfl | hy'
        · exact hrefl _
        · rcases List.mem_cons.mp ((insertLe_perm le a t').mem_iff.mp hy') with hya | hyt
          · subst hya; exact (htot h' y).resolve_right hah
          · exact ihh y (List.mem_cons_of_mem _ hyt)

theorem le_foldr_max {l : List ℕ} {x n : ℕ} (h : x ∈ l) : x ≤ l.foldr max n := by
  induction l with
  | nil => cases h
  | cons a l ih =>
    rcases List.mem_cons.mp h with rfl | h'
    · exact le_max_left _ _
    · exact le_trans (ih h') (le_max_right _ _)

/-! ### Basic table lemmas -/

theorem mem_of_getCol_some {t : Table} {c : String} {vs : List Val}
    (h : t.getCol c = some vs) : c ∈ t.colNames := by
  induction t with
  | nil => simp [Table.getCol, List.find?] at h
  | cons col t ih =>
    simp only [Table.getCol, List.find?] at h
    by_cases hc : col.name = c
    · simp [Table.colNames, hc]
    · have hb : (col.name == c) = false := beq_eq_false_iff_ne.mpr hc
      rw [hb] at h
      simp only [Table.colNames, List.map_cons, List.mem_cons]
      exact Or.inr (ih h)

theorem getCol_eq_none_of_not_mem {t : Table} {c : String}
    (h : c ∉ t.colNames) : t.getCol c = none := by
  induction t with
  | nil => rfl
  | cons col t ih =>
    simp only [Table.colNames, List.map_cons, List.mem_cons, not_or] at h
    have hb : (col.name == c) = false := beq_eq_false_iff_ne.mpr (fun he => h.1 he.symm)
    simp only [Table.getCol, List.find?, hb]
    exact ih h.2

theorem getCol_isSome_of_mem {t : Table} {c : String}
    (h : c ∈ t.colNames) : ∃ vs, t.getCol c = some vs := by
  induction t with
  | nil => simp [Table.colNames] at h
  | cons col t ih =>
    by_cases hc : col.name = c
    · exact ⟨col.vals, by simp [Table.getCol, List.find?, hc]⟩
    · have hb : (col.name == c) = false := beq_eq_false_iff_ne.mpr hc
      simp only [Table.colNames, List.map_cons, List.mem_cons] at h
      rcases h with h | h
      · exact absurd h.symm hc
      · obtain ⟨vs, hvs⟩ := ih h
        exact ⟨vs, by simpa [Table.getCol, List.find?, hb] using hvs⟩

theorem exists_col_of_getCol_some {t : Table} {c : String} {vs : List Val}
    (h : t.getCol c = some vs) : ∃ col ∈ t, col.name = c ∧ col.vals = vs := by
  induction t with
  | nil => simp [Table.getCol, List.find?] at h
  | cons col t ih =>
    simp only [Table.getCol, List.find?] at h
    by_cases hc : col.name = c
    · have hb : (col.name == c) = true := beq_iff_eq.mpr hc
      rw [hb] at h
      have h' : col.vals = vs := by simpa using h
      exact ⟨col, List.mem_cons_self .., hc, h'⟩
    · have hb : (col.name == c) = false := beq_eq_false_iff_ne.mpr hc
      rw [hb] at h
      obtain ⟨col', hmem, hname, hvals⟩ := ih h
      exact ⟨col', List.mem_cons_of_mem _ hmem, hname, hvals⟩

theorem getCol_length {t : Table} {c : String} {vs : List Val} {n : ℕ}
    (hu : UniformTable t n) (h : t.getCol c = some vs) : vs.length = n := by
  obtain ⟨col, hmem, _, hvals⟩ := exists_col_of_getCol_some h
  exact hvals ▸ hu col hmem

theorem getCol_append_left {t t' : Table} {c : String} {vs : List Val}
    (h : t.getCol c = some vs) : (t ++ t').getCol c = some vs := by
  induction t with
  | nil => simp [Table.getCol, List.find?] at h
  | cons col rest ih =>
    simp only [Table.getCol, List.find?] at h ⊢
    cases hb : (col.name == c) with
    | true => rw [hb] at h; simpa using h
    | false => rw [hb] at h; exact ih h

theorem getCol_append_of_not_mem {t t' : Table} {c : String}
    (h : c ∉ t.colNames) : (t ++ t').getCol c = t'.getCol c := by
  induction t with
  | nil => rfl
  | cons col rest ih =>
    simp only [Table.colNames, List.map_cons, List.mem_cons, not_or] at h
    have hb : (col.name == c) = false := beq_eq_false_iff_ne.mpr (fun he => h.1 he.symm)
    simp only [List.cons_append, Table.getCol, List.find?, hb]
    exact ih h.2

theorem colNames_setCol (t : Table) (c : String) (vs : List Val) :
    (t.setCol c vs).colNames = t.colNames := by
  induction t with
  | nil => rfl
  | cons col rest ih =>
    by_cases hc : col.name = c
    · simpa [Table.setCol, Table.colNames, hc] using ih
    · simpa [Table.setCol, Table.colNames, hc] using ih

theorem getCol_setCol_self {t : Table} {c : String} (vs : List Val)
    (h : c ∈ t.colNames) : (t.setCol c vs).getCol c = some vs := by
  induction t with
  | nil => simp [Table.colNames] at h
  | cons col rest ih =>
    by_cases hc : col.name = c
    · simp [Table.setCol, Table.getCol, List.find?, hc]
    · have hb : (col.name == c) = false := beq_eq_false_iff_ne.mpr hc
      simp only [Table.colNames, List.map_cons, List.mem_cons] at h
      rcases h with h | h
      · exact absurd h.symm hc
      · simpa [Table.setCol, Table.getCol, List.find?, hc, hb] using ih h

theorem getCol_setCol_ne {t : Table} {c c' : String} (vs : List Val)
    (h : c' ≠ c) : (t.setCol c vs).getCol c' = t.getCol c' := by
  induction t with
  | nil => rfl
  | cons col rest ih =>
    by_cases hc : col.name = c
    · have hb2 : (col.name == c') = false :=
        beq_eq_false_iff_ne.mpr (fun he => h (he.symm.trans hc))
      simp only [Table.setCol, Table.getCol, List.find?, if_pos hc, hb2] at ih ⊢
      exact ih
    · simp only [Table.setCol, Table.getCol, List.find?, if_neg hc] at ih ⊢
      cases hb : (col.name == c') with
      | true => simp
      | false => simp only [hb]; exact ih

theorem colNames_dropCol (t : Table) (c : String) :
    (t.dropCol c).colNames = t.colNames.filter (fun n => !(n == c)) := by
  induction t with
  | nil => rfl
  | cons col rest ih =>
    cases hb : (col.name == c) with
    | true => simpa [Table.dropCol, Table.colNames, List.filter, hb] using ih
    | false => simpa [Table.dropCol, Table.colNames, List.filter, hb] using ih

theorem dropCol_eq_self {t : Table} {c : String} (h : c ∉ t.colNames) :
    t.dropCol c = t := by
  induction t with
  | nil => rfl
  | cons col rest ih =>
    simp only [Table.colNames, List.map_cons, List.mem_cons, not_or] at h
    have hb : (col.name == c) = false := beq_eq_false_iff_ne.mpr (fun he => h.1 he.symm)
    simp only [Table.dropCol, List.filter, hb, Bool.not_false]
    exact congrArg (col :: ·) (ih h.2)

theorem getCol_dropCol_ne {t : Table} {c c' : String} (h : c' ≠ c) :
    (t.dropCol c).getCol c' = t.getCol c' := by
  induction t with
  | nil => rfl
  | cons col rest ih =>
    by_cases hc : col.name = c
    · have hb : (col.name == c) = true := beq_iff_eq.mpr hc
      have hb2 : (col.name == c') = false :=
        beq_eq_false_iff_ne.mpr (fun he => h (he ▸ hc))
      simp only [Table.dropCol, List.filter, hb, Bool.not_true, Table.getCol, List.find?, hb2]
      exact ih
    · have hb : (col.name == c) = false := beq_eq_false_iff_ne.mpr hc
      simp only [Table.dropCol, List.filter, hb, Bool.not_false, Table.getCol, List.find?]
      cases hb2 : (col.name == c') with
      | true => simp
      | false => exact ih

theorem not_mem_colNames_renameCol {t : Table} {c c' : String} (h : c' ≠ c) :
    c ∉ (t.renameCol c c').colNames := by
  induction t with
  | nil => simp [Table.renameCol, Table.colNames]
  | cons col rest ih =>
    simp only [Table.renameCol, Table.colNames, List.map_cons] at ih ⊢
    rw [List.mem_cons]
    rintro (he | he)
    · by_cases hc : col.name = c
      · rw [if_pos hc] at he
        exact h he.symm
      · rw [if_neg hc] at he
        exact hc he.symm
    · exact ih he

theorem setCol_append (t t' : Table) (c : String) (vs : List Val) :
    (t ++ t').setCol c vs = t.setCol c vs ++ t'.setCol c vs :=
  List.map_append ..

theorem dropCol_append (t t' : Table) (c : String) :
    (t ++ t').dropCol c = t.dropCol c ++ t'.dropCol c :=
  List.filter_append ..

theorem setCol_eq_self {t : Table} {c : String} {vs : List Val}
    (h : ∀ col ∈ t, col.name = c → col.vals = vs) : t.setCol c vs = t := by
  induction t with
  | nil => rfl
  | cons col rest ih =>
    have ht : Table.setCol rest c vs = rest :=
      ih (fun col' hm => h col' (List.mem_cons_of_mem _ hm))
    by_cases hc : col.name = c
    · have hv : col.vals = vs := h col (List.mem_cons_self ..) hc
      have hcol : (⟨col.name, vs⟩ : Col) = col := by rw [← hv]
      simp only [Table.setCol, List.map_cons, if_pos hc, List.cons.injEq] at ht ⊢
      exact ⟨hcol, ht⟩
    · simpa [Table.setCol, hc] using ht

theorem vals_eq_of_nodup {t : Table} {c : String} {vs : List Val}
    (hnd : t.colNames.Nodup) (h : t.getCol c = some vs) :
    ∀ col ∈ t, col.name = c → col.vals = vs := by
  induction t with
  | nil => intro col hm; cases hm
  | cons col0 rest ih =>
    intro col hm hname
    simp only [Table.colNames, List.map_cons, List.nodup_cons] at hnd
    simp only [Table.getCol, List.find?] at h
    rcases List.mem_cons.mp hm with rfl | hm'
    · have hb : (col.name == c) = true := beq_iff_eq.mpr hname
      rw [hb] at h
      simpa using h
    · by_cases hc0 : col0.name = c
      · exact absurd (hc0 ▸ hname ▸ List.mem_map_of_mem Col.name hm') hnd.1
      · have hb : (col0.name == c) = false := beq_eq_false_iff_ne.mpr hc0
        rw [hb] at h
        exact ih hnd.2 h col hm' hname

theorem uniform_append {t t' : Table} {n : ℕ}
    (h1 : UniformTable t n) (h2 : UniformTable t' n) : UniformTable (t ++ t') n := by
  intro col hm
  rcases List.mem_append.mp hm with hm | hm
  · exact h1 col hm
  · exact h2 col hm

theorem uniform_setCol {t : Table} {n : ℕ} {c : String} {vs : List Val}
    (hu : UniformTable t n) (hv : vs.length = n) : UniformTable (t.setCol c vs) n := by
  intro col hm
  obtain ⟨col0, hm0, heq⟩ := List.mem_map.mp hm
  by_cases hc : col0.name = c
  · rw [if_pos hc] at heq
    rw [← heq]
    exact hv
  · rw [if_neg hc] at heq
    exact heq ▸ hu col0 hm0

theorem uniform_dropCol {t : Table} {n : ℕ} {c : String}
    (hu : UniformTable t n) : UniformTable (t.dropCol c) n :=
  fun col hm => hu col (List.mem_of_mem_filter hm)

theorem str_ne_of_length_ne {a b : String} (h : a.length ≠ b.length) : a ≠ b :=
  fun he => h (he ▸ rfl)

theorem mode_name_length (v : String) : ("Mode_" ++ v).length = 5 + v.length := by
  have h1 : ("Mode_" ++ v).length = "Mode_".length + v.length := String.length_append ..
  have h2 : "Mode_".length = 5 := rfl
  rw [h1, h2]

theorem mode_name_ne (v : String) : ("Mode_" ++ v) ≠ v := by
  apply str_ne_of_length_ne
  rw [mode_name_length]
  omega

/-! ### Lemmas about one transform iteration -/

theorem colNames_append (t t' : Table) : (t ++ t').colNames = t.colNames ++ t'.colNames :=
  List.map_append ..

theorem not_mem_of_getCol_none {t : Table} {c : String} (h : t.getCol c = none) :
    c ∉ t.colNames := by
  intro hm
  obtain ⟨vs, hvs⟩ := getCol_isSome_of_mem hm
  rw [h] at hvs
  cases hvs

theorem str_append_ne (a s : String) (hs : s.length ≠ 0) : a ++ s ≠ a := by
  apply str_ne_of_length_ne
  rw [String.length_append]
  omega

theorem getCol_single_self (col : Col) : Table.getCol [col] col.name = some col.vals := by
  simp [Table.getCol, List.find?]

theorem getCol_single_ne {col : Col} {c : String} (h : c ≠ col.name) :
    Table.getCol [col] c = none := by
  have hb : (col.name == c) = false := beq_eq_false_iff_ne.mpr (fun he => h he.symm)
  simp [Table.getCol, List.find?, hb]

/-- The temporary mode column appended by the merge. -/
def modeCol (v1 : String) (modes : List (Val × Val)) (ks : List Val) : Col :=
  ⟨"Mode_" ++ v1, ks.map (modeLookup modes)⟩

/-- A successful `transform` iteration decomposed: the merge key column and
the target column exist, no `Mode_` name collision occurred, and the result
is merge, fill, drop. -/
theorem transformPair_ok {v1 v2 : String} {modes : List (Val × Val)} {Xc Y : Table}
    (h : transformPair v1 v2 modes Xc = .ok Y) :
    ∃ ks tv, Xc.getCol v2 = some ks ∧ Xc.getCol v1 = some tv ∧
      ("Mode_" ++ v1) ∉ Xc.colNames ∧
      Y = ((Xc ++ [modeCol v1 modes ks]).setCol v1
            (tv.zipWith orFill (ks.map (modeLookup modes)))).dropCol ("Mode_" ++ v1) := by
  unfold transformPair at h
  cases hv2 : Xc.getCol v2 with
  | none => rw [hv2] at h; cases h
  | some ks =>
    rw [hv2] at h
    simp only at h
    by_cases hmc : ("Mode_" ++ v1) ∈ Xc.colNames
    · rw [if_pos hmc] at h
      have hx : ("Mode_" ++ v1) ++ "_x" ≠ ("Mode_" ++ v1) := str_append_ne _ _ (by decide)
      have hy : ("Mode_" ++ v1) ++ "_y" ≠ ("Mode_" ++ v1) := str_append_ne _ _ (by decide)
      have hnm : ("Mode_" ++ v1) ∉
          (Xc.renameCol ("Mode_" ++ v1) (("Mode_" ++ v1) ++ "_x") ++
            [(⟨("Mode_" ++ v1) ++ "_y", List.map (modeLookup modes) ks⟩ : Col)]).colNames := by
        rw [colNames_append]
        intro hm
        rcases List.mem_append.mp hm with hm | hm
        · exact not_mem_colNames_renameCol hx hm
        · simp only [Table.colNames, List.map_cons, List.map_nil, List.mem_singleton] at hm
          exact hy hm.symm
      have hnone := getCol_eq_none_of_not_mem hnm
      cases hv1 : Table.getCol
          (Xc.renameCol ("Mode_" ++ v1) (("Mode_" ++ v1) ++ "_x") ++
            [(⟨("Mode_" ++ v1) ++ "_y", List.map (modeLookup modes) ks⟩ : Col)]) v1 with
      | none => rw [hv1] at h; cases h
      | some tv => rw [hv1, hnone] at h; cases h
    · rw [if_neg hmc] at h
      cases hv1 : Xc.getCol v1 with
      | none =>
        have hne : v1 ≠ "Mode_" ++ v1 := fun he => mode_name_ne v1 he.symm
        have h1 : (Xc ++ [modeCol v1 modes ks]).getCol v1 = none := by
          rw [getCol_append_of_not_mem (not_mem_of_getCol_none hv1)]
          exact getCol_single_ne hne
        rw [show (⟨"Mode_" ++ v1, List.map (modeLookup modes) ks⟩ : Col)
          = modeCol v1 modes ks from rfl, h1] at h
        cases h
      | some tv =>
        have h1 : (Xc ++ [modeCol v1 modes ks]).getCol v1 = some tv :=
          getCol_append_left hv1
        have h2 : (Xc ++ [modeCol v1 modes ks]).getCol ("Mode_" ++ v1)
            = some (List.map (modeLookup modes) ks) := by
          rw [getCol_append_of_not_mem hmc]
          exact getCol_single_self (modeCol v1 modes ks)
        rw [show (⟨"Mode_" ++ v1, List.map (modeLookup modes) ks⟩ : Col)
          = modeCol v1 modes ks from rfl, h1, h2] at h
        simp only [Except.ok.injEq] at h
        exact ⟨ks, tv, rfl, rfl, hmc, h.symm⟩

theorem filter_ne_eq_self {l : List String} {c : String} (h : c ∉ l) :
    l.filter (fun n => !(n == c)) = l := by
  induction l with
  | nil => rfl
  | cons a l ih =>
    simp only [List.mem_cons, not_or] at h
    have hb : (a == c) = false := beq_eq_false_iff_ne.mpr (fun he => h.1 he.symm)
    simp only [List.filter, hb, Bool.not_false]
    exact congrArg (a :: ·) (ih h.2)

theorem transformPair_ok_colNames {v1 v2 : String} {modes : List (Val × Val)} {Xc Y : Table}
    (h : transformPair v1 v2 modes Xc = .ok Y) : Y.colNames = Xc.colNames := by
  obtain ⟨ks, tv, _, _, hmc, hY⟩ := transformPair_ok h
  subst hY
  rw [colNames_dropCol, colNames_setCol, colNames_append]
  rw [List.filter_append, filter_ne_eq_self hmc]
  have h2 : (Table.colNames [modeCol v1 modes ks]).filter
      (fun n => !(n == "Mode_" ++ v1)) = [] := by
    simp [Table.colNames, modeCol, List.filter]
  rw [h2, List.append_nil]

theorem transformPair_ok_uniform {v1 v2 : String} {modes : List (Val × Val)} {Xc Y : Table}
    {n : ℕ} (h : transformPair v1 v2 modes Xc = .ok Y) (hu : UniformTable Xc n) :
    UniformTable Y n := by
  obtain ⟨ks, tv, hks, htv, hmc, hY⟩ := transformPair_ok h
  subst hY
  have hk : ks.length = n := getCol_length hu hks
  have ht : tv.length = n := getCol_length hu htv
  apply uniform_dropCol
  apply uniform_setCol
  · apply uniform_append hu
    intro col hm
    simp only [List.mem_singleton] at hm
    subst hm
    simpa [modeCol] using hk
  · rw [List.length_zipWith, List.length_map, hk, ht]
    exact Nat.min_self n

theorem transformPair_ok_getCol_ne {v1 v2 : String} {modes : List (Val × Val)} {Xc Y : Table}
    {c : String} (h : transformPair v1 v2 modes Xc = .ok Y) (hc : c ≠ v1) :
    Y.getCol c = Xc.getCol c := by
  obtain ⟨ks, tv, hks, htv, hmc, hY⟩ := transformPair_ok h
  by_cases hcm : c = ("Mode_" ++ v1)
  · have hcN : c ∉ Xc.colNames := hcm ▸ hmc
    have hYN : c ∉ Y.colNames := by
      rw [transformPair_ok_colNames h]
      exact hcN
    rw [getCol_eq_none_of_not_mem hYN, getCol_eq_none_of_not_mem hcN]
  · subst hY
    rw [getCol_dropCol_ne hcm, getCol_setCol_ne _ hc]
    cases hXc : Xc.getCol c with
    | some vs => rw [getCol_append_left hXc]
    | none =>
      rw [getCol_append_of_not_mem (not_mem_of_getCol_none hXc)]
      exact getCol_single_ne hcm

theorem transformPair_ok_target {v1 v2 : String} {modes : List (Val × Val)} {Xc Y : Table}
    (h : transformPair v1 v2 modes Xc = .ok Y) :
    ∃ ks tv, Xc.getCol v2 = some ks ∧ Xc.getCol v1 = some tv ∧
      Y.getCol v1 = some (tv.zipWith orFill (ks.map (modeLookup modes))) := by
  obtain ⟨ks, tv, hks, htv, hmc, hY⟩ := transformPair_ok h
  subst hY
  refine ⟨ks, tv, hks, htv, ?_⟩
  have hne : v1 ≠ "Mode_" ++ v1 := fun he => mode_name_ne v1 he.symm
  rw [getCol_dropCol_ne hne]
  apply getCol_setCol_self
  rw [colNames_append]
  exact List.mem_append.mpr (Or.inl (mem_of_getCol_some htv))

theorem transformPair_error_of_missing {v1 v2 : String} (modes : List (Val × Val)) {Xc : Table}
    (h : v1 ∉ Xc.colNames ∨ v2 ∉ Xc.colNames) :
    ∃ e, transformPair v1 v2 modes Xc = .error e := by
  cases hY : transformPair v1 v2 modes Xc with
  | error e => exact ⟨e, rfl⟩
  | ok Y =>
    obtain ⟨ks, tv, hks, htv, _, _⟩ := transformPair_ok hY
    rcases h with h | h
    · exact absurd (mem_of_getCol_some htv) h
    · exact absurd (mem_of_getCol_some hks) h

theorem transformPair_eq_fillPair {v1 v2 : String} {modes : List (Val × Val)} {Xc : Table}
    (hmc : ("Mode_" ++ v1) ∉ Xc.colNames) :
    transformPair v1 v2 modes Xc = fillPair v1 v2 modes Xc := by
  unfold transformPair fillPair
  cases hv2 : Xc.getCol v2 with
  | none => rfl
  | some ks =>
    simp only [if_neg hmc]
    cases hv1 : Xc.getCol v1 with
    | none =>
      have hne : v1 ≠ "Mode_" ++ v1 := fun he => mode_name_ne v1 he.symm
      have h1 : (Xc ++ [modeCol v1 modes ks]).getCol v1 = none := by
        rw [getCol_append_of_not_mem (not_mem_of_getCol_none hv1)]
        exact getCol_single_ne hne
      rw [show (⟨"Mode_" ++ v1, List.map (modeLookup modes) ks⟩ : Col)
        = modeCol v1 modes ks from rfl, h1]
    | some tv =>
      have h1 : (Xc ++ [modeCol v1 modes ks]).getCol v1 = some tv :=
        getCol_append_left hv1
      have h2 : (Xc ++ [modeCol v1 modes ks]).getCol ("Mode_" ++ v1)
          = some (List.map (modeLookup modes) ks) := by
        rw [getCol_append_of_not_mem hmc]
        exact getCol_single_self (modeCol v1 modes ks)
      rw [show (⟨"Mode_" ++ v1, List.map (modeLookup modes) ks⟩ : Col)
        = modeCol v1 modes ks from rfl, h1, h2]
      simp only [Except.ok.injEq]
      have hne : ¬ ("Mode_" ++ v1) = v1 := mode_name_ne v1
      rw [setCol_append, dropCol_append]
      have h3 : Table.setCol [modeCol v1 modes ks] v1
          (tv.zipWith orFill (ks.map (modeLookup modes))) = [modeCol v1 modes ks] := by
        simp [Table.setCol, modeCol, hne]
      rw [h3]
      have h4 : Table.dropCol [modeCol v1 modes ks] ("Mode_" ++ v1) = [] := by
        simp [Table.dropCol, modeCol, List.filter]
      rw [h4]
      have h5 : (Xc.setCol v1 (tv.zipWith orFill (ks.map (modeLookup modes)))).dropCol
          ("Mode_" ++ v1) = Xc.setCol v1 (tv.zipWith orFill (ks.map (modeLookup modes))) := by
        apply dropCol_eq_self
        rw [colNames_setCol]
        exact hmc
      rw [h5, List.append_nil]

/-! ### The transform loop -/

theorem foldl_bind_error {α β : Type} (f : β → α → Except String α) (l : List β) (e : String) :
    List.foldl (fun acc pr => acc.bind (f pr)) (.error e : Except String α) l = .error e := by
  induction l with
  | nil => rfl
  | cons pr l ih => simpa [Except.bind] using ih

theorem foldl_bind_cons {α β : Type} (f : β → α → Except String α) (x : α) (pr : β)
    (l : List β) :
    List.foldl (fun acc p => acc.bind (f p)) (.ok x : Except String α) (pr :: l)
      = List.foldl (fun acc p => acc.bind (f p)) (f pr x) l := rfl

theorem transformRun_cur (st : Fitted) (X : Table) :
    transform st X = st.all_modes_.foldl
      (fun acc pr => acc.bind (transformPair pr.1 pr.2.1 pr.2.2)) (.ok X) := by
  unfold transform transformRun
  generalize st.all_modes_ = l
  have h : ∀ (l : List (String × String × List (Val × Val))) (s : TState),
      (List.foldl transformStep s l).cur = List.foldl
        (fun acc pr => acc.bind (transformPair pr.1 pr.2.1 pr.2.2)) s.cur l := by
    intro l
    induction l with
    | nil => intro s; rfl
    | cons pr l ih =>
      intro s
      exact ih (transformStep s pr)
  exact h l (⟨X, .ok X⟩ : TState)

theorem fillPair_ok_colNames {v1 v2 : String} {modes : List (Val × Val)} {Xc Y : Table}
    (h : fillPair v1 v2 modes Xc = .ok Y) : Y.colNames = Xc.colNames := by
  unfold fillPair at h
  cases hv2 : Xc.getCol v2 with
  | none => rw [hv2] at h; cases h
  | some ks =>
    rw [hv2] at h
    cases hv1 : Xc.getCol v1 with
    | none => rw [hv1] at h; cases h
    | some tv =>
      rw [hv1] at h
      simp only [Except.ok.injEq] at h
      rw [← h, colNames_setCol]

theorem transformFold_colNames :
    ∀ (l : List (String × String × List (Val × Val))) (Xc Y : Table),
      List.foldl (fun acc pr => acc.bind (transformPair pr.1 pr.2.1 pr.2.2))
        (.ok Xc : Except String Table) l = .ok Y →
      Y.colNames = Xc.colNames := by
  intro l
  induction l with
  | nil =>
    intro Xc Y h
    simp only [List.foldl] at h
    injection h with h
    rw [h]
  | cons pr l ih =>
    intro Xc Y h
    rw [foldl_bind_cons] at h
    cases htp : transformPair pr.1 pr.2.1 pr.2.2 Xc with
    | error e =>
      rw [htp] at h
      rw [foldl_bind_error] at h
      cases h
    | ok Z =>
      rw [htp] at h
      exact (ih Z Y h).trans (transformPair_ok_colNames htp)

theorem transformFold_uniform {n : ℕ} :
    ∀ (l : List (String × String × List (Val × Val))) (Xc Y : Table),
      List.foldl (fun acc pr => acc.bind (transformPair pr.1 pr.2.1 pr.2.2))
        (.ok Xc : Except String Table) l = .ok Y →
      UniformTable Xc n → UniformTable Y n := by
  intro l
  induction l with
  | nil =>
    intro Xc Y h hu
    simp only [List.foldl] at h
    injection h with h
    rw [← h]
    exact hu
  | cons pr l ih =>
    intro Xc Y h hu
    rw [foldl_bind_cons] at h
    cases htp : transformPair pr.1 pr.2.1 pr.2.2 Xc with
    | error e =>
      rw [htp, foldl_bind_error] at h
      cases h
    | ok Z =>
      rw [htp] at h
      exact ih Z Y h (transformPair_ok_uniform htp hu)

theorem transformFold_getCol_ne {c : String} :
    ∀ (l : List (String × String × List (Val × Val))) (Xc Y : Table),
      List.foldl (fun acc pr => acc.bind (transformPair pr.1 pr.2.1 pr.2.2))
        (.ok Xc : Except String Table) l = .ok Y →
      (∀ pr ∈ l, pr.1 ≠ c) → Y.getCol c = Xc.getCol c := by
  intro l
  induction l with
  | nil =>
    intro Xc Y h _
    simp only [List.foldl] at h
    injection h with h
    rw [h]
  | cons pr l ih =>
    intro Xc Y h hne
    rw [foldl_bind_cons] at h
    cases htp : transformPair pr.1 pr.2.1 pr.2.2 Xc with
    | error e =>
      rw [htp, foldl_bind_error] at h
      cases h
    | ok Z =>
      rw [htp] at h
      have h1 := ih Z Y h (fun pr' hm => hne pr' (List.mem_cons_of_mem _ hm))
      have h2 := transformPair_ok_getCol_ne htp
        (fun he => hne pr (List.mem_cons_self ..) he.symm)
      exact h1.trans h2

theorem transformFold_error_of_missing {X : Table} :
    ∀ (l : List (String × String × List (Val × Val))) (Xc : Table),
      Xc.colNames = X.colNames →
      (∃ pr ∈ l, pr.1 ∉ X.colNames ∨ pr.2.1 ∉ X.colNames) →
      ∃ e, List.foldl (fun acc pr => acc.bind (transformPair pr.1 pr.2.1 pr.2.2))
        (.ok Xc : Except String Table) l = .error e := by
  intro l
  induction l with
  | nil =>
    intro Xc _ h
    simp at h
  | cons pr l ih =>
    intro Xc hn h
    rcases h with ⟨pr', hpr', hmiss⟩
    rcases List.mem_cons.mp hpr' with rfl | hpr'
    · have hmiss' : pr'.1 ∉ Xc.colNames ∨ pr'.2.1 ∉ Xc.colNames := by
        rw [hn]
        exact hmiss
      obtain ⟨e, he⟩ := transformPair_error_of_missing pr'.2.2 hmiss'
      refine ⟨e, ?_⟩
      rw [foldl_bind_cons, he]
      exact foldl_bind_error ..
    · cases htp : transformPair pr.1 pr.2.1 pr.2.2 Xc with
      | error e =>
        refine ⟨e, ?_⟩
        rw [foldl_bind_cons, htp]
        exact foldl_bind_error ..
      | ok Z =>
        obtain ⟨e, he⟩ := ih Z ((transformPair_ok_colNames htp).trans hn) ⟨pr', hpr', hmiss⟩
        refine ⟨e, ?_⟩
        rw [foldl_bind_cons, htp]
        exact he

theorem zipWith_orFill_eq_self :
    ∀ (tv mv : List Val), none ∉ tv → tv.length ≤ mv.length →
      tv.zipWith orFill mv = tv := by
  intro tv
  induction tv with
  | nil => intro mv _ _; rfl
  | cons a tv ih =>
    intro mv hn hl
    cases mv with
    | nil => simp at hl
    | cons b mv =>
      simp only [List.mem_cons, not_or] at hn
      have ha : orFill a b = a := by
        cases a with
        | none => exact absurd rfl hn.1
        | some x => rfl
      simp only [List.zipWith, ha]
      exact congrArg (a :: ·) (ih mv hn.2 (by simpa using hl))

theorem transformPair_noop {v1 v2 : String} {modes : List (Val × Val)} {X Z : Table} {n : ℕ}
    (h : transformPair v1 v2 modes X = .ok Z)
    (hnm : ∀ tv, X.getCol v1 = some tv → none ∉ tv)
    (hu : UniformTable X n) (hnd : X.colNames.Nodup) : Z = X := by
  obtain ⟨ks, tv, hks, htv, hmc, hZ⟩ := transformPair_ok h
  have hfill : tv.zipWith orFill (ks.map (modeLookup modes)) = tv := by
    apply zipWith_orFill_eq_self
    · exact hnm tv htv
    · rw [List.length_map, getCol_length hu hks, getCol_length hu htv]
  rw [hfill] at hZ
  have hne : ¬ ("Mode_" ++ v1) = v1 := mode_name_ne v1
  have hset1 : Table.setCol [modeCol v1 modes ks] v1 tv = [modeCol v1 modes ks] := by
    simp [Table.setCol, modeCol, hne]
  have hset : X.setCol v1 tv = X := setCol_eq_self (vals_eq_of_nodup hnd htv)
  rw [setCol_append, hset1, hset, dropCol_append] at hZ
  have hdrop1 : Table.dropCol [modeCol v1 modes ks] ("Mode_" ++ v1) = [] := by
    simp [Table.dropCol, modeCol, List.filter]
  rw [hdrop1, dropCol_eq_self hmc, List.append_nil] at hZ
  exact hZ

theorem transformFold_noop {X : Table} {n : ℕ}
    (hu : UniformTable X n) (hnd : X.colNames.Nodup) :
    ∀ (l : List (String × String × List (Val × Val))) (Y : Table),
      (∀ pr ∈ l, ∀ tv, X.getCol pr.1 = some tv → none ∉ tv) →
      List.foldl (fun acc pr => acc.bind (transformPair pr.1 pr.2.1 pr.2.2))
        (.ok X : Except String Table) l = .ok Y →
      Y = X := by
  intro l
  induction l with
  | nil =>
    intro Y _ h
    simp only [List.foldl] at h
    injection h with h
    exact h.symm
  | cons pr l ih =>
    intro Y hnm h
    rw [foldl_bind_cons] at h
    cases htp : transformPair pr.1 pr.2.1 pr.2.2 X with
    | error e =>
      rw [htp, foldl_bind_error] at h
      cases h
    | ok Z =>
      rw [htp] at h
      have hZ : Z = X :=
        transformPair_noop htp (hnm pr (List.mem_cons_self ..)) hu hnd
      rw [hZ] at h
      exact ih Y (fun pr' hm => hnm pr' (List.mem_cons_of_mem _ hm)) h

/-! ### Indexed access and lookup lemmas -/

theorem getq_zipWith (f : Val → Val → Val) :
    ∀ (as bs : List Val) (i : ℕ) (a b : Val), as.get? i = some a → bs.get? i = some b →
      (List.zipWith f as bs).get? i = some (f a b) := by
  intro as
  induction as with
  | nil => intro bs i a b ha; simp at ha
  | cons x as ih =>
    intro bs i a b ha hb
    cases bs with
    | nil => simp at hb
    | cons y bs =>
      cases i with
      | zero =>
        simp only [List.get?] at ha hb
        injection ha with ha
        injection hb with hb
        subst ha; subst hb
        rfl
      | succ i =>
        simp only [List.get?] at ha hb
        simpa [List.zipWith, List.get?] using ih bs i a b ha hb

theorem getq_map {f : Val → Val} :
    ∀ (l : List Val) (i : ℕ) (a : Val), l.get? i = some a → (l.map f).get? i = some (f a) := by
  intro l
  induction l with
  | nil => intro i a h; simp at h
  | cons x l ih =>
    intro i a h
    cases i with
    | zero =>
      simp only [List.get?] at h
      injection h with h
      subst h
      rfl
    | succ i =>
      simp only [List.get?] at h
      simpa [List.map, List.get?] using ih i a h

theorem lookup_keyMap (f : Val → Val) :
    ∀ (ks : List Val) (k : Val), k ∈ ks →
      (ks.map (fun x => (x, f x))).lookup k = some (f k) := by
  intro ks
  induction ks with
  | nil => intro k h; cases h
  | cons a ks ih =>
    intro k h
    by_cases hk : k = a
    · subst hk
      simp [List.lookup]
    · have hb : (k == a) = false := beq_eq_false_iff_ne.mpr hk
      rcases List.mem_cons.mp h with he | hm
      · exact absurd he hk
      · simpa [List.lookup, hb] using ih k hm

theorem none_mem_sortKeys {d : List Val} (h : none ∈ d) : (none : Val) ∈ sortKeys d := by
  unfold sortKeys
  rw [if_pos h]
  exact List.mem_append.mpr (Or.inr (List.mem_singleton.mpr rfl))

theorem modesFor_lookup {t d : List Val} {k : Val} (h : k ∈ sortKeys d) :
    (modesFor t d).lookup k = some (groupMode (groupExtract t d k)) :=
  lookup_keyMap (fun k' => groupMode (groupExtract t d k')) (sortKeys d) k h

/-! ### Properties of the pandas mode -/

theorem groupMode_some {g : List Val} {m : String} (h : groupMode g = some m) :
    m ∈ g.filterMap id ∧
    (∀ v ∈ g.filterMap id, (g.filterMap id).count v ≤ (g.filterMap id).count m) ∧
    (∀ v ∈ g.filterMap id, (g.filterMap id).count v = (g.filterMap id).count m →
      strLeB m v = true) := by
  unfold groupMode seriesMode at h
  set s := g.filterMap id with hs
  set mx := (s.dedup.map (fun v => s.count v)).foldr max 0 with hmx
  set tied := s.dedup.filter (fun v => s.count v == mx) with htied
  cases hsort : sortStrings tied with
  | nil => rw [hsort] at h; cases h
  | cons x t' =>
    rw [hsort] at h
    injection h with h
    rw [h] at hsort
    have hmem : m ∈ tied := by
      have : m ∈ sortStrings tied := by
        rw [hsort]; exact List.mem_cons_self ..
      exact (sortLe_perm strLeB tied).mem_iff.mp this
    have hdm : m ∈ s.dedup := List.mem_of_mem_filter hmem
    have hcm : s.count m = mx := by
      have := List.of_mem_filter hmem
      exact beq_iff_eq.mp this
    refine ⟨List.mem_dedup.mp hdm, ?_, ?_⟩
    · intro v hv
      rw [hcm]
      exact le_foldr_max (List.mem_map_of_mem _ (List.mem_dedup.mpr hv))
    · intro v hv hcv
      have hvt : v ∈ tied := by
        rw [htied]
        apply List.mem_filter.mpr
        exact ⟨List.mem_dedup.mpr hv, by rw [hcv, hcm]; exact beq_iff_eq.mpr rfl⟩
      have hvs : v ∈ sortStrings tied := (sortLe_perm strLeB tied).mem_iff.mpr hvt
      rw [hsort] at hvs
      exact sortLe_head_le strLeB_total strLeB_trans tied m t' hsort v hvs

/-! ### Crosstab marginals and the degenerate chi-square cases -/

theorem crosstab_rowsum_ne_zero (c1 c2 : List Val) :
    ∀ row ∈ crosstab c1 c2, row.sum ≠ 0 := by
  intro row hrow
  unfold crosstab at hrow
  obtain ⟨a, ha, hrow⟩ := List.mem_map.mp hrow
  have ha' : a ∈ (jointPairs c1 c2).map Prod.fst := mem_sortDedup.mp ha
  obtain ⟨pr, hpr, hpa⟩ := List.mem_map.mp ha'
  have hb : pr.2 ∈ sortDedup ((jointPairs c1 c2).map Prod.snd) :=
    mem_sortDedup.mpr (List.mem_map_of_mem Prod.snd hpr)
  have hcnt : 0 < (jointPairs c1 c2).count (a, pr.2) := by
    apply List.count_pos_iff.mpr
    rw [← hpa]
    exact hpr
  have hmem : (jointPairs c1 c2).count (a, pr.2) ∈ row := by
    rw [← hrow]
    exact List.mem_map_of_mem _ hb
  have hle : (jointPairs c1 c2).count (a, pr.2) ≤ row.sum :=
    List.single_le_sum (fun x _ => Nat.zero_le x) _ hmem
  omega

theorem crosstab_width (c1 c2 : List Val) (h : crosstab c1 c2 ≠ []) :
    ((crosstab c1 c2).headD []).length
      = (sortDedup ((jointPairs c1 c2).map Prod.snd)).length := by
  simp only [crosstab] at h ⊢
  cases hrows : sortDedup (List.map Prod.fst (jointPairs c1 c2)) with
  | nil => rw [hrows] at h; simp at h
  | cons a rows => simp

theorem crosstab_colsum_ne_zero (c1 c2 : List Val) (jdx : ℕ)
    (hj : jdx < (sortDedup ((jointPairs c1 c2).map Prod.snd)).length) :
    ((crosstab c1 c2).map (fun row => row.getD jdx 0)).sum ≠ 0 := by
  set j := jointPairs c1 c2 with hjdef
  set cols := sortDedup (j.map Prod.snd) with hcols
  set b := cols.get ⟨jdx, hj⟩ with hb
  have hbmem : b ∈ cols := List.get_mem ..
  have hbj : b ∈ j.map Prod.snd := mem_sortDedup.mp hbmem
  obtain ⟨pr, hpr, hpb⟩ := List.mem_map.mp hbj
  have ha0 : pr.1 ∈ sortDedup (j.map Prod.fst) :=
    mem_sortDedup.mpr (List.mem_map_of_mem Prod.fst hpr)
  have hentry : ∀ a : String,
      ((cols.map (fun b' => j.count (a, b'))).getD jdx 0) = j.count (a, b) := by
    intro a
    have hlen : jdx < (cols.map (fun b' => j.count (a, b'))).length := by
      rw [List.length_map]
      exact hj
    rw [List.getD_eq_getElem _ _ hlen]
    simp [hb]
  have hmap : (crosstab c1 c2).map (fun row => row.getD jdx 0)
      = (sortDedup (j.map Prod.fst)).map (fun a => j.count (a, b)) := by
    unfold crosstab
    rw [List.map_map]
    apply List.map_congr_left
    intro a _
    exact hentry a
  rw [hmap]
  have hcnt : 0 < j.count (pr.1, b) := by
    apply List.count_pos_iff.mpr
    rw [← hpb]
    exact hpr
  have hmem : j.count (pr.1, b) ∈ (sortDedup (j.map Prod.fst)).map (fun a => j.count (a, b)) :=
    List.mem_map_of_mem _ ha0
  have hle := List.single_le_sum (fun x (_ : x ∈ (sortDedup (j.map Prod.fst)).map
    (fun a => j.count (a, b))) => Nat.zero_le x) _ hmem
  omega

theorem crosstab_rowAny_false (c1 c2 : List Val) :
    ((crosstab c1 c2).map List.sum).any (· == 0) = false := by
  rw [List.any_eq_false]
  intro x hx
  obtain ⟨row, hrow, hxe⟩ := List.mem_map.mp hx
  simp only [beq_iff_eq]
  rw [← hxe]
  exact crosstab_rowsum_ne_zero c1 c2 row hrow

theorem crosstab_colAny_false (c1 c2 : List Val) (hne : crosstab c1 c2 ≠ []) :
    ((List.range ((crosstab c1 c2).headD []).length).map
      (fun j => ((crosstab c1 c2).map (fun row => row.getD j 0)).sum)).any (· == 0)
      = false := by
  rw [List.any_eq_false]
  intro x hx
  obtain ⟨jdx, hjm, hxe⟩ := List.mem_map.mp hx
  have hj : jdx < (sortDedup ((jointPairs c1 c2).map Prod.snd)).length := by
    rw [← crosstab_width c1 c2 hne]
    exact List.mem_range.mp hjm
  simp only [beq_iff_eq]
  rw [← hxe]
  exact crosstab_colsum_ne_zero c1 c2 jdx hj

theorem sortDedup_eq_nil {l : List String} : sortDedup l = [] ↔ l = [] := by
  constructor
  · intro h
    have hp : (sortDedup l).Perm l.dedup := sortLe_perm strLeB l.dedup
    rw [h] at hp
    exact (List.dedup_eq_nil l).mp hp.symm.eq_nil
  · intro h
    subst h
    rfl

theorem crosstab_eq_nil_iff {c1 c2 : List Val} :
    crosstab c1 c2 = [] ↔ jointPairs c1 c2 = [] := by
  simp only [crosstab]
  rw [List.map_eq_nil_iff, sortDedup_eq_nil, List.map_eq_nil_iff]

/-- A pair with no co-observed rows yields an empty crosstab, on which
scipy raises. -/
theorem chi2P_crosstab_empty (sf : ℚ → ℕ → ℚ) {c1 c2 : List Val}
    (h : jointPairs c1 c2 = []) :
    chi2ContingencyP sf (crosstab c1 c2) = .error "No data; observed has size 0." := by
  have hc : crosstab c1 c2 = [] := crosstab_eq_nil_iff.mpr h
  simp [chi2ContingencyP, hc]

theorem chi2P_crosstab_ok (sf : ℚ → ℕ → ℚ) (c1 c2 : List Val)
    (hj : jointPairs c1 c2 ≠ []) :
    ∃ p, chi2ContingencyP sf (crosstab c1 c2) = .ok p := by
  have hne : crosstab c1 c2 ≠ [] := fun h => hj (crosstab_eq_nil_iff.mp h)
  have hn : ¬ (crosstab c1 c2).length = 0 := by
    intro h
    exact hne (List.length_eq_zero.mp h)
  have hrow := crosstab_rowAny_false c1 c2
  have hcol := crosstab_colAny_false c1 c2 hne
  simp only [chi2ContingencyP]
  rw [if_neg hn, hrow, hcol]
  simp only [Bool.or_self]
  rw [if_neg (by decide : ¬ ((false : Bool) = true))]
  by_cases hdof : ((crosstab c1 c2).length - 1) * (((crosstab c1 c2).headD []).length - 1) = 0
  · rw [if_pos hdof]
    exact ⟨1, rfl⟩
  · rw [if_neg hdof]
    exact ⟨_, rfl⟩

/-- The degenerate-but-nonempty contingency tables: at least one
co-observed row, and a dimension with fewer than two labels (so the
chi-square test has zero degrees of freedom). -/
def degenerateDims (obs : List (List ℕ)) : Prop :=
  obs ≠ [] ∧ (obs.length ≤ 1 ∨ (obs.headD []).length ≤ 1)

instance (obs : List (List ℕ)) : Decidable (degenerateDims obs) := by
  unfold degenerateDims; infer_instance

theorem chi2P_degenerate_crosstab (sf : ℚ → ℕ → ℚ) (c1 c2 : List Val)
    (hdeg : degenerateDims (crosstab c1 c2)) :
    chi2ContingencyP sf (crosstab c1 c2) = .ok 1 := by
  obtain ⟨hne, hdims⟩ := hdeg
  have hn : ¬ (crosstab c1 c2).length = 0 := by
    intro h
    exact hne (List.length_eq_zero.mp h)
  have hrow := crosstab_rowAny_false c1 c2
  have hcol := crosstab_colAny_false c1 c2 hne
  have hdof : ((crosstab c1 c2).length - 1) * (((crosstab c1 c2).headD []).length - 1) = 0 := by
    rcases hdims with h | h
    · have h1 : (crosstab c1 c2).length - 1 = 0 := by omega
      rw [h1, Nat.zero_mul]
    · have h1 : ((crosstab c1 c2).headD []).length - 1 = 0 := by omega
      rw [h1, Nat.mul_zero]
  simp only [chi2ContingencyP]
  rw [if_neg hn, hrow, hcol]
  simp only [Bool.or_self]
  rw [if_neg (by decide : ¬ ((false : Bool) = true)), if_pos hdof]

/-! ### The pair scan and the driver selection -/

theorem mem_listProd {a b : List String} {x y : String} :
    (x, y) ∈ listProd a b ↔ x ∈ a ∧ y ∈ b := by
  simp [listProd, Prod.ext_iff]

theorem pairResults_total (sf : ℚ → ℕ → ℚ) (X : Table) :
    ∀ prs : List (String × String),
      (∀ pr ∈ prs, pr.1 ∈ X.colNames ∧ pr.2 ∈ X.colNames) →
      (∀ pr ∈ prs, pr.1 ≠ pr.2 → ∀ cc1 cc2, X.getCol pr.1 = some cc1 →
        X.getCol pr.2 = some cc2 → jointPairs cc1 cc2 ≠ []) →
      ∃ rs, pairResults sf X prs = .ok rs := by
  intro prs
  induction prs with
  | nil => intro _ _; exact ⟨[], rfl⟩
  | cons pr rest ih =>
    intro h hj
    obtain ⟨v1, v2⟩ := pr
    obtain ⟨rs, hrs⟩ := ih (fun pr' hm => h pr' (List.mem_cons_of_mem _ hm))
      (fun pr' hm => hj pr' (List.mem_cons_of_mem _ hm))
    by_cases hv : v1 = v2
    · exact ⟨rs, by simpa [pairResults, hv] using hrs⟩
    · obtain ⟨hm1, hm2⟩ := h (v1, v2) (List.mem_cons_self ..)
      obtain ⟨cc1, hc1⟩ := getCol_isSome_of_mem hm1
      obtain ⟨cc2, hc2⟩ := getCol_isSome_of_mem hm2
      obtain ⟨p, hp⟩ := chi2P_crosstab_ok sf cc1 cc2
        (hj (v1, v2) (List.mem_cons_self ..) hv cc1 cc2 hc1 hc2)
      refine ⟨(v1, v2, p) :: rs, ?_⟩
      simp only [pairResults, if_neg hv, hc1, hc2, hp, hrs]
      rfl

theorem pairResults_mem (sf : ℚ → ℕ → ℚ) (X : Table) :
    ∀ (prs : List (String × String)) (rs : List (String × String × ℚ)),
      pairResults sf X prs = .ok rs →
      ∀ v1 v2 p cc1 cc2, (v1, v2) ∈ prs → v1 ≠ v2 →
        X.getCol v1 = some cc1 → X.getCol v2 = some cc2 →
        chi2ContingencyP sf (crosstab cc1 cc2) = .ok p →
        (v1, v2, p) ∈ rs := by
  intro prs
  induction prs with
  | nil =>
    intro rs _ v1 v2 p cc1 cc2 hm
    cases hm
  | cons pr rest ih =>
    intro rs h v1 v2 p cc1 cc2 hm hne hc1 hc2 hp
    obtain ⟨w1, w2⟩ := pr
    rcases List.mem_cons.mp hm with he | hm'
    · injection he with he1 he2
      subst he1; subst he2
      simp only [pairResults, if_neg hne, hc1, hc2, hp] at h
      cases hrest : pairResults sf X rest with
      | error e => rw [hrest] at h; cases h
      | ok rs' =>
        rw [hrest] at h
        simp only [Except.map, Except.ok.injEq] at h
        rw [← h]
        exact List.mem_cons_self ..
    · by_cases hw : w1 = w2
      · simp only [pairResults, if_pos hw] at h
        exact ih rs h v1 v2 p cc1 cc2 hm' hne hc1 hc2 hp
      · simp only [pairResults, if_neg hw] at h
        cases hw1 : X.getCol w1 with
        | none => simp only [hw1] at h; cases h
        | some d1 =>
          cases hw2 : X.getCol w2 with
          | none => simp only [hw1, hw2] at h; cases h
          | some d2 =>
            simp only [hw1, hw2] at h
            cases hchi : chi2ContingencyP sf (crosstab d1 d2) with
            | error e => simp only [hchi] at h; cases h
            | ok q =>
              simp only [hchi] at h
              cases hrest : pairResults sf X rest with
              | error e => rw [hrest] at h; cases h
              | ok rs' =>
                rw [hrest] at h
                simp only [Except.map, Except.ok.injEq] at h
                rw [← h]
                exact List.mem_cons_of_mem _ (ih rs' hrest v1 v2 p cc1 cc2 hm' hne hc1 hc2 hp)

theorem pairResults_shape (sf : ℚ → ℕ → ℚ) (X : Table) :
    ∀ (prs : List (String × String)) (rs : List (String × String × ℚ)),
      pairResults sf X prs = .ok rs →
      rs.map (fun r => (r.1, r.2.1)) = prs.filter (fun pr => !(pr.1 == pr.2)) := by
  intro prs
  induction prs with
  | nil =>
    intro rs h
    injection h with h
    rw [← h]
    rfl
  | cons pr rest ih =>
    intro rs h
    obtain ⟨w1, w2⟩ := pr
    by_cases hw : w1 = w2
    · have hb : (w1 == w2) = true := beq_iff_eq.mpr hw
      simp only [pairResults, if_pos hw] at h
      simp only [List.filter, hb, Bool.not_true]
      exact ih rs h
    · have hb : (w1 == w2) = false := beq_eq_false_iff_ne.mpr hw
      simp only [pairResults, if_neg hw] at h
      cases hw1 : X.getCol w1 with
      | none => simp only [hw1] at h; cases h
      | some d1 =>
        cases hw2 : X.getCol w2 with
        | none => simp only [hw1, hw2] at h; cases h
        | some d2 =>
          simp only [hw1, hw2] at h
          cases hchi : chi2ContingencyP sf (crosstab d1 d2) with
          | error e => simp only [hchi] at h; cases h
          | ok q =>
            simp only [hchi] at h
            cases hrest : pairResults sf X rest with
            | error e => rw [hrest] at h; cases h
            | ok rs' =>
              rw [hrest] at h
              simp only [Except.map, Except.ok.injEq] at h
              rw [← h]
              simp only [List.map_cons, List.filter, hb, Bool.not_false]
              exact congrArg ((w1, w2) :: ·) (ih rs' hrest)

theorem minPval_isSome : ∀ l : List (String × String × ℚ), l ≠ [] → ∃ q, minPval l = some q := by
  intro l h
  cases l with
  | nil => exact absurd rfl h
  | cons r rest =>
    cases hrest : minPval rest with
    | none => exact ⟨r.2.2, by simp [minPval, hrest]⟩
    | some q => exact ⟨min r.2.2 q, by simp [minPval, hrest]⟩

theorem firstMinBy_isSome : ∀ l : List (String × String × ℚ), l ≠ [] →
    ∃ m, firstMinBy l = some m := by
  intro l h
  cases l with
  | nil => exact absurd rfl h
  | cons r rest =>
    cases hrest : firstMinBy rest with
    | none => exact ⟨r, by simp [firstMinBy, hrest]⟩
    | some m =>
      by_cases hle : r.2.2 ≤ m.2.2
      · exact ⟨r, by simp [firstMinBy, hrest, hle]⟩
      · exact ⟨m, by simp [firstMinBy, hrest, hle]⟩

theorem firstMinBy_mem : ∀ (l : List (String × String × ℚ)) (m : String × String × ℚ),
    firstMinBy l = some m → m ∈ l := by
  intro l
  induction l with
  | nil => intro m h; cases h
  | cons r rest ih =>
    intro m h
    simp only [firstMinBy] at h
    cases hrest : firstMinBy rest with
    | none =>
      simp only [hrest] at h
      injection h with h
      rw [← h]
      exact List.mem_cons_self ..
    | some m' =>
      simp only [hrest] at h
      by_cases hle : r.2.2 ≤ m'.2.2
      · rw [if_pos hle] at h
        injection h with h
        rw [← h]
        exact List.mem_cons_self ..
      · rw [if_neg hle] at h
        injection h with h
        rw [← h]
        exact List.mem_cons_of_mem _ (ih m' hrest)

theorem minPval_none_iff : ∀ l : List (String × String × ℚ), minPval l = none ↔ l = [] := by
  intro l
  cases l with
  | nil => simp [minPval]
  | cons r rest =>
    simp only [minPval]
    cases minPval rest <;> simp

/-- Pandas `idxmin` characterised: the selected row is the first one whose
p-value equals the group minimum. -/
theorem firstMinBy_eq_find :
    ∀ (l : List (String × String × ℚ)) (q : ℚ), minPval l = some q →
      firstMinBy l = l.find? (fun r => decide (r.2.2 = q)) := by
  intro l
  induction l with
  | nil => intro q h; cases h
  | cons r rest ih =>
    intro q hq
    simp only [minPval] at hq
    cases hrest : minPval rest with
    | none =>
      rw [hrest] at hq
      injection hq with hq
      have hnil : rest = [] := (minPval_none_iff rest).mp hrest
      subst hnil
      rw [← hq]
      simp [firstMinBy, List.find?]
    | some q' =>
      rw [hrest] at hq
      injection hq with hq
      have hne : rest ≠ [] := by
        intro h
        subst h
        cases hrest
      obtain ⟨m, hm⟩ := firstMinBy_isSome rest hne
      have hmq : m.2.2 = q' := by
        have := ih q' hrest
        rw [hm] at this
        have hpred := List.find?_some this.symm
        simpa using hpred
      simp only [firstMinBy, hm]
      by_cases hle : r.2.2 ≤ m.2.2
      · rw [if_pos hle]
        have hqr : q = r.2.2 := by
          rw [← hq, min_eq_left (hmq ▸ hle)]
        simp [List.find?, hqr]
      · rw [if_neg hle]
        have hlt : m.2.2 < r.2.2 := lt_of_not_le hle
        have hqq : q = q' := by
          rw [← hq]
          exact min_eq_right (le_of_lt (hmq ▸ hlt))
        have hrne : ¬ (r.2.2 = q) := by
          rw [hqq, ← hmq]
          intro h
          rw [h] at hle
          exact hle (le_refl _)
        have hd : (decide (r.2.2 = q)) = false := by simpa using hrne
        simp only [List.find?, hd]
        rw [hqq, ← ih q' hrest, hm]

theorem groupOf_key {rs : List (String × String × ℚ)} {a : String} {r : String × String × ℚ}
    (h : r ∈ groupOf rs a) : r.1 = a := by
  have := List.of_mem_filter h
  exact beq_iff_eq.mp this

theorem groupOf_ne_nil {rs : List (String × String × ℚ)} {a : String}
    (h : a ∈ rs.map (fun r => r.1)) : groupOf rs a ≠ [] := by
  obtain ⟨r, hr, ha⟩ := List.mem_map.mp h
  exact List.ne_nil_of_mem (List.mem_filter.mpr ⟨hr, beq_iff_eq.mpr ha⟩)

theorem lookup_filterMap_keyed :
    ∀ (keys : List String) (g : String → Option (String × String)) (a : String),
      (∀ k ∈ keys, ∃ v, g k = some (k, v)) → a ∈ keys →
      (keys.filterMap g).lookup a = (g a).map Prod.snd := by
  intro keys
  induction keys with
  | nil => intro g a _ h; cases h
  | cons k ks ih =>
    intro g a hg ha
    obtain ⟨v, hv⟩ := hg k (List.mem_cons_self ..)
    simp only [List.filterMap_cons, hv]
    by_cases hak : a = k
    · subst hak
      rw [hv]
      simp [List.lookup]
    · have hb : (a == k) = false := beq_eq_false_iff_ne.mpr hak
      have ha' : a ∈ ks := (List.mem_cons.mp ha).resolve_left hak
      simp only [List.lookup, hb]
      exact ih g a (fun k' hk' => hg k' (List.mem_cons_of_mem _ hk')) ha'

theorem relatedVars_lookup {rs : List (String × String × ℚ)} {a : String}
    (ha : a ∈ rs.map (fun r => r.1)) :
    (relatedVars rs).lookup a = (firstMinBy (groupOf rs a)).map (fun r => r.2.1) := by
  unfold relatedVars
  have hg : ∀ k ∈ sortDedup (rs.map (fun r => r.1)), ∃ v,
      (firstMinBy (groupOf rs k)).map (fun r => (r.1, r.2.1)) = some (k, v) := by
    intro k hk
    have hk' : k ∈ rs.map (fun r => r.1) := mem_sortDedup.mp hk
    obtain ⟨m, hm⟩ := firstMinBy_isSome _ (groupOf_ne_nil hk')
    refine ⟨m.2.1, ?_⟩
    rw [hm]
    have hk1 : m.1 = k := groupOf_key (firstMinBy_mem _ _ hm)
    show some (m.1, m.2.1) = some (k, m.2.1)
    rw [hk1]
  rw [lookup_filterMap_keyed _ _ a hg (mem_sortDedup.mpr ha)]
  cases hm : firstMinBy (groupOf rs a) with
  | none => rfl
  | some m => rfl

/-! ### fit and the ignore set -/

theorem npSetdiff_absent {names ig : List String} {z : String} (hz : z ∉ names) :
    npSetdiff1d names (z :: ig) = npSetdiff1d names ig := by
  unfold npSetdiff1d
  have h : names.filter (fun x => !((z :: ig).contains x))
      = names.filter (fun x => !(ig.contains x)) := by
    apply List.filter_congr
    intro x hx
    have hxz : ¬ x = z := fun he => hz (he ▸ hx)
    simp [List.contains_cons, hxz]
  rw [h]

theorem fit_ignore_absent (sf : ℚ → ℕ → ℚ) (ig : List String) (z : String) (X : Table)
    (hz : z ∉ X.colNames) : fit sf (some (z :: ig)) X = fit sf (some ig) X := by
  have h : catFeatures X (some (z :: ig)) = catFeatures X (some ig) := by
    show npSetdiff1d X.colNames (z :: ig) = npSetdiff1d X.colNames ig
    exact npSetdiff_absent hz
  unfold fit
  rw [h]

/-! ### Claim C1: is imputation single-pass? -/

def c1FitTable : Table :=
  [⟨"A", [some "a", some "x", some "x"]⟩, ⟨"B", [some "u", some "u", none]⟩]

def c1InTable : Table := [⟨"A", [none]⟩, ⟨"B", [none]⟩]

def c1State : Fitted :=
  ⟨[("A", "B"), ("B", "A")],
   [("A", "B", [(some "u", some "a"), (none, some "x")]),
    ("B", "A", [(some "a", some "u"), (some "x", some "u")])]⟩

/-- C1 counterexample: with the imputer fitted on `c1FitTable`, transforming
a row whose A and B are both missing first fills A with "x" (the NaN driver
group of B) and then, while filling B, looks up the FRESHLY FILLED value
"x" of A, producing B = "u"; the single-pass semantics of the spec (driver
values read from the original input) would leave B missing.  So a
freshly-filled target value is used as a driver value in the same call. -/
theorem c1_counterexample :
    fit (fun _ _ => (0 : ℚ)) none c1FitTable = .ok c1State ∧
    transform c1State c1InTable = .ok [⟨"A", [some "x"]⟩, ⟨"B", [some "u"]⟩] ∧
    singlePassTransform c1State c1InTable = .ok [⟨"A", [some "x"]⟩, ⟨"B", [none]⟩] ∧
    ([⟨"A", [some "x"]⟩, ⟨"B", [some "u"]⟩] : Table)
      ≠ [⟨"A", [some "x"]⟩, ⟨"B", [none]⟩] :=
  ⟨rfl, rfl, rfl, by decide⟩

/-- C1 amended: `transform` applies the (target, driver) pairs sequentially
to the working copy, and each pair's driver values are read from the
CURRENT working table — including values freshly filled into a driver
column as a target by an earlier pair of the same call.  Formally, under
the side condition that no `Mode_*` column-name collision occurs, the
merge-fill-drop loop equals the sequential current-table fill
`transformSeq`. -/
theorem c1_amended (st : Fitted) (X : Table)
    (hm : ∀ pr ∈ st.all_modes_, ("Mode_" ++ pr.1) ∉ X.colNames) :
    transform st X = transformSeq st X := by
  rw [transformRun_cur]
  unfold transformSeq
  have key : ∀ (l : List (String × String × List (Val × Val))) (Xc : Table),
      Xc.colNames = X.colNames →
      (∀ pr ∈ l, ("Mode_" ++ pr.1) ∉ X.colNames) →
      List.foldl (fun acc pr => acc.bind (transformPair pr.1 pr.2.1 pr.2.2))
        (.ok Xc : Except String Table) l
      = List.foldl (fun acc pr => acc.bind (fillPair pr.1 pr.2.1 pr.2.2))
        (.ok Xc : Except String Table) l := by
    intro l
    induction l with
    | nil => intro Xc _ _; rfl
    | cons pr l ih =>
      intro Xc hn hml
      rw [foldl_bind_cons, foldl_bind_cons]
      have hmc : ("Mode_" ++ pr.1) ∉ Xc.colNames := by
        rw [hn]
        exact hml pr (List.mem_cons_self ..)
      rw [transformPair_eq_fillPair hmc]
      cases hfp : fillPair pr.1 pr.2.1 pr.2.2 Xc with
      | error e => rw [foldl_bind_error, foldl_bind_error]
      | ok Z =>
        exact ih Z ((fillPair_ok_colNames hfp).trans hn)
          (fun pr' h' => hml pr' (List.mem_cons_of_mem _ h'))
  exact key st.all_modes_ X rfl hm

/-- C1 amended witness at a concrete fitted state and input. -/
theorem c1_amended_witness :
    (∀ pr ∈ c1State.all_modes_, ("Mode_" ++ pr.1) ∉ c1InTable.colNames) ∧
    transform c1State c1InTable = transformSeq c1State c1InTable :=
  ⟨by decide, c1_amended c1State c1InTable (by decide)⟩

/-! ### Claim C2: mode tie-breaking -/

def c2FitTable : Table := [⟨"A", [some "b", some "a"]⟩, ⟨"B", [some "u", some "u"]⟩]

/-- C2 counterexample: in the group of driver value "u" the target values
are ["b", "a"] — a frequency tie whose first-encountered value in table
row order is "b" — yet the fitted ModeMap stores "a": pandas
`Series.mode()` returns the tied values sorted ascending, so ties break to
the smallest value, not to the first-encountered one. -/
theorem c2_counterexample :
    fit (fun _ _ => (0 : ℚ)) none c2FitTable = .ok
      ⟨[("A", "B"), ("B", "A")],
       [("A", "B", [(some "u", some "a")]),
        ("B", "A", [(some "a", some "u"), (some "b", some "u")])]⟩ ∧
    groupExtract [some "b", some "a"] [some "u", some "u"] (some "u")
      = [some "b", some "a"] ∧
    firstTiedMode [some "b", some "a"] = some "b" ∧
    (some "a" : Val) ≠ some "b" :=
  ⟨rfl, rfl, rfl, by decide⟩

/-- C2 amended: for every (target, driver) pair, every ModeMap entry
`(k, some m)` stores a value `m` that occurs among the group's non-missing
target values, has maximal frequency there, and is the LEAST tied value in
code-point order (pandas `Series.mode()` sorts the tied values ascending
and `iloc[0]` takes the smallest), not the first-encountered one. -/
theorem c2_amended (t d : List Val) (k mv : Val) (m : String)
    (hmem : (k, mv) ∈ modesFor t d) (hv : mv = some m) :
    m ∈ (groupExtract t d k).filterMap id ∧
    (∀ v ∈ (groupExtract t d k).filterMap id,
      ((groupExtract t d k).filterMap id).count v
        ≤ ((groupExtract t d k).filterMap id).count m) ∧
    (∀ v ∈ (groupExtract t d k).filterMap id,
      ((groupExtract t d k).filterMap id).count v
        = ((groupExtract t d k).filterMap id).count m → strLeB m v = true) := by
  subst hv
  unfold modesFor at hmem
  obtain ⟨k', hk', heq⟩ := List.mem_map.mp hmem
  have hk : k' = k := congrArg Prod.fst heq
  have hgm : groupMode (groupExtract t d k') = some m := by
    have := congrArg Prod.snd heq
    simpa using this
  subst hk
  exact groupMode_some hgm

/-- C2 amended witness on the tied group ["b", "a"]. -/
theorem c2_amended_witness :
    ((some "u", some "a") ∈ modesFor [some "b", some "a"] [some "u", some "u"] ∧
      (some "a" : Val) = some "a") ∧
    ("a" ∈ (groupExtract [some "b", some "a"] [some "u", some "u"] (some "u")).filterMap id ∧
      (∀ v ∈ (groupExtract [some "b", some "a"] [some "u", some "u"] (some "u")).filterMap id,
        ((groupExtract [some "b", some "a"] [some "u", some "u"] (some "u")).filterMap id).count v
          ≤ ((groupExtract [some "b", some "a"] [some "u", some "u"]
              (some "u")).filterMap id).count "a") ∧
      (∀ v ∈ (groupExtract [some "b", some "a"] [some "u", some "u"] (some "u")).filterMap id,
        ((groupExtract [some "b", some "a"] [some "u", some "u"] (some "u")).filterMap id).count v
          = ((groupExtract [some "b", some "a"] [some "u", some "u"]
              (some "u")).filterMap id).count "a" → strLeB "a" v = true)) :=
  ⟨⟨by decide, rfl⟩,
    c2_amended [some "b", some "a"] [some "u", some "u"] (some "u") (some "a") "a"
      (by decide) rfl⟩

/-! ### Claim C3: degenerate pairs and the minimization -/

def c3FitTable : Table := [⟨"A", [some "x", some "x"]⟩, ⟨"B", [some "u", some "v"]⟩]

/-- C3 counterexample: column A has a single distinct value, so both of its
candidate pairs have a degenerate contingency table; the claim says such
pairs are excluded and A receives no driver, yet fit completes and assigns
A the driver B (degenerate pairs enter the minimization with p-value 1). -/
theorem c3_counterexample :
    fit (fun _ _ => (0 : ℚ)) none c3FitTable = .ok
      ⟨[("A", "B"), ("B", "A")],
       [("A", "B", [(some "u", some "x"), (some "v", some "x")]),
        ("B", "A", [(some "x", some "u")])]⟩ ∧
    degenerateDims (crosstab [some "x", some "x"] [some "u", some "v"]) ∧
    degenerateDims (crosstab [some "u", some "v"] [some "x", some "x"]) ∧
    ("A", "B") ∈ ([("A", "B"), ("B", "A")] : List (String × String)) :=
  ⟨rfl, by decide, by decide, by decide⟩

/-- C3 amended: a pair whose contingency table is degenerate but nonempty
(a dimension with exactly one distinct co-observed value) is NOT excluded:
it receives p-value 1.0 (scipy's zero-degrees-of-freedom case) and
participates in the p-value minimization like any other pair, and when
every pair of distinct fitted columns has at least one co-observed row the
pair scan completes without error.  Zero-count rows or columns cannot
arise from the crosstab construction (every label sum is positive).  A
pair with NO co-observed rows, however, produces an empty contingency
table on which scipy raises `ValueError("No data; observed has size 0.")`,
so fit fails there rather than excluding the pair. -/
theorem c3_amended (sf : ℚ → ℕ → ℚ) (X : Table) (cats : List String)
    (hc : ∀ c ∈ cats, c ∈ X.colNames)
    (hj : ∀ pr ∈ listProd cats cats, pr.1 ≠ pr.2 →
      ∀ col1 ∈ X, ∀ col2 ∈ X, col1.name = pr.1 → col2.name = pr.2 →
        jointPairs col1.vals col2.vals ≠ []) :
    (∃ rs, pairResults sf X (listProd cats cats) = .ok rs ∧
      ∀ v1 v2 cc1 cc2, (v1, v2) ∈ listProd cats cats → v1 ≠ v2 →
        X.getCol v1 = some cc1 → X.getCol v2 = some cc2 →
        degenerateDims (crosstab cc1 cc2) → (v1, v2, 1) ∈ rs) ∧
    (∀ cc1 cc2 : List Val, jointPairs cc1 cc2 = [] →
      chi2ContingencyP sf (crosstab cc1 cc2) = .error "No data; observed has size 0.") := by
  constructor
  · have hcols : ∀ pr ∈ listProd cats cats, pr.1 ∈ X.colNames ∧ pr.2 ∈ X.colNames := by
      intro pr hm
      have hm' : (pr.1, pr.2) ∈ listProd cats cats := hm
      obtain ⟨h1, h2⟩ := mem_listProd.mp hm'
      exact ⟨hc pr.1 h1, hc pr.2 h2⟩
    have hj' : ∀ pr ∈ listProd cats cats, pr.1 ≠ pr.2 → ∀ cc1 cc2,
        X.getCol pr.1 = some cc1 → X.getCol pr.2 = some cc2 →
        jointPairs cc1 cc2 ≠ [] := by
      intro pr hm hne cc1 cc2 h1 h2
      obtain ⟨col1, hm1, hn1, hv1⟩ := exists_col_of_getCol_some h1
      obtain ⟨col2, hm2, hn2, hv2⟩ := exists_col_of_getCol_some h2
      have hres := hj pr hm hne col1 hm1 col2 hm2 hn1 hn2
      rw [hv1, hv2] at hres
      exact hres
    obtain ⟨rs, hrs⟩ := pairResults_total sf X (listProd cats cats) hcols hj'
    refine ⟨rs, hrs, ?_⟩
    intro v1 v2 cc1 cc2 hm hne hc1 hc2 hdeg
    exact pairResults_mem sf X (listProd cats cats) rs hrs v1 v2 1 cc1 cc2 hm hne hc1 hc2
      (chi2P_degenerate_crosstab sf cc1 cc2 hdeg)
  · intro cc1 cc2 h
    exact chi2P_crosstab_empty sf h

/-- C3 amended witness on the all-degenerate table. -/
theorem c3_amended_witness :
    ((∀ c ∈ (["A", "B"] : List String), c ∈ c3FitTable.colNames) ∧
      (∀ pr ∈ listProd ["A", "B"] ["A", "B"], pr.1 ≠ pr.2 →
        ∀ col1 ∈ c3FitTable, ∀ col2 ∈ c3FitTable,
          col1.name = pr.1 → col2.name = pr.2 →
          jointPairs col1.vals col2.vals ≠ [])) ∧
    ((∃ rs, pairResults (fun _ _ => (0 : ℚ)) c3FitTable (listProd ["A", "B"] ["A", "B"])
        = .ok rs ∧
      ∀ v1 v2 cc1 cc2, (v1, v2) ∈ listProd ["A", "B"] ["A", "B"] → v1 ≠ v2 →
        c3FitTable.getCol v1 = some cc1 → c3FitTable.getCol v2 = some cc2 →
        degenerateDims (crosstab cc1 cc2) → (v1, v2, 1) ∈ rs) ∧
    (∀ cc1 cc2 : List Val, jointPairs cc1 cc2 = [] →
      chi2ContingencyP (fun _ _ => (0 : ℚ)) (crosstab cc1 cc2)
        = .error "No data; observed has size 0.")) :=
  ⟨⟨by decide, by decide⟩,
    c3_amended (fun _ _ => (0 : ℚ)) c3FitTable ["A", "B"] (by decide) (by decide)⟩

/-! ### Claim C4: tie-breaking in driver selection -/

/-- C4: the selection stage is deterministic and breaks exact p-value ties
by generation order.  With `rs` the results list of a successful pair scan,
(a) the pairs of `rs` are exactly the off-diagonal generated pairs in
generation order, and (b) the driver selected for a target A is the FIRST
row of A's group attaining the group's minimal p-value (pandas `idxmin`
keeps the first minimum; groupby sorts the group keys).  Since `fit` is a
pure function of the table and the column order, repeated calls select the
same driver. -/
theorem c4_tie_break (sf : ℚ → ℕ → ℚ) (X : Table) (prs : List (String × String))
    (rs : List (String × String × ℚ)) (A : String)
    (h1 : pairResults sf X prs = .ok rs) (hA : A ∈ rs.map (fun r => r.1)) :
    rs.map (fun r => (r.1, r.2.1)) = prs.filter (fun pr => !(pr.1 == pr.2)) ∧
    ∃ q, minPval (groupOf rs A) = some q ∧
      (relatedVars rs).lookup A
        = ((groupOf rs A).find? (fun r => decide (r.2.2 = q))).map (fun r => r.2.1) := by
  refine ⟨pairResults_shape sf X prs rs h1, ?_⟩
  obtain ⟨q, hq⟩ := minPval_isSome _ (groupOf_ne_nil hA)
  refine ⟨q, hq, ?_⟩
  rw [relatedVars_lookup hA, firstMinBy_eq_find _ q hq]

def c4Table : Table :=
  [⟨"A", [some "a", some "a", some "x"]⟩,
   ⟨"B", [some "u", some "u", some "v"]⟩,
   ⟨"C", [some "m", some "m", some "w"]⟩]

/-- C4 witness: three perfectly co-varying columns under a constant
survival function give every pair the same p-value, so the drivers of A
are exactly tied; the theorem applies with the concrete results list. -/
theorem c4_tie_break_witness :
    (pairResults (fun _ _ => mkRat 1 2) c4Table
        (listProd (catFeatures c4Table none) (catFeatures c4Table none))
      = .ok [("A", "B", mkRat 1 2), ("A", "C", mkRat 1 2), ("B", "A", mkRat 1 2),
             ("B", "C", mkRat 1 2), ("C", "A", mkRat 1 2), ("C", "B", mkRat 1 2)] ∧
      "A" ∈ ([("A", "B", mkRat 1 2), ("A", "C", mkRat 1 2), ("B", "A", mkRat 1 2),
              ("B", "C", mkRat 1 2), ("C", "A", mkRat 1 2),
              ("C", "B", mkRat 1 2)] : List (String × String × ℚ)).map (fun r => r.1)) ∧
    (([("A", "B", mkRat 1 2), ("A", "C", mkRat 1 2), ("B", "A", mkRat 1 2),
       ("B", "C", mkRat 1 2), ("C", "A", mkRat 1 2),
       ("C", "B", mkRat 1 2)] : List (String × String × ℚ)).map (fun r => (r.1, r.2.1))
      = (listProd (catFeatures c4Table none) (catFeatures c4Table none)).filter
          (fun pr => !(pr.1 == pr.2)) ∧
     ∃ q, minPval (groupOf [("A", "B", mkRat 1 2), ("A", "C", mkRat 1 2),
            ("B", "A", mkRat 1 2), ("B", "C", mkRat 1 2), ("C", "A", mkRat 1 2),
            ("C", "B", mkRat 1 2)] "A") = some q ∧
       (relatedVars [("A", "B", mkRat 1 2), ("A", "C", mkRat 1 2), ("B", "A", mkRat 1 2),
          ("B", "C", mkRat 1 2), ("C", "A", mkRat 1 2), ("C", "B", mkRat 1 2)]).lookup "A"
         = ((groupOf [("A", "B", mkRat 1 2), ("A", "C", mkRat 1 2), ("B", "A", mkRat 1 2),
              ("B", "C", mkRat 1 2), ("C", "A", mkRat 1 2), ("C", "B", mkRat 1 2)]
             "A").find? (fun r => decide (r.2.2 = q))).map (fun r => r.2.1)) :=
  ⟨⟨rfl, by decide⟩,
    c4_tie_break (fun _ _ => mkRat 1 2) c4Table
      (listProd (catFeatures c4Table none) (catFeatures c4Table none)) _ "A" rfl (by decide)⟩

/-! ### Claim C5: missing fitted columns at transform time -/

/-- C5: if the table passed to `transform` lacks any driver or target
column recorded in the fitted state, `transform` fails with an error (the
KeyError raised by the merge or the column lookup; the spec names it
SchemaMismatchError).  The failure is synchronous: no table is returned. -/
theorem c5_schema_mismatch (st : Fitted) (X : Table)
    (h : ∃ pr ∈ st.all_modes_, pr.1 ∉ X.colNames ∨ pr.2.1 ∉ X.colNames) :
    ∃ e, transform st X = .error e := by
  rw [transformRun_cur]
  exact transformFold_error_of_missing st.all_modes_ X rfl h

def c5State : Fitted := ⟨[("A", "B")], [("A", "B", [(some "u", some "a")])]⟩

def c5Table : Table := [⟨"C", [some "z"]⟩]

/-- C5 witness: a table missing both fitted columns makes transform fail. -/
theorem c5_schema_mismatch_witness :
    (∃ pr ∈ c5State.all_modes_, pr.1 ∉ c5Table.colNames ∨ pr.2.1 ∉ c5Table.colNames) ∧
    (∃ e, transform c5State c5Table = .error e) :=
  ⟨by decide, c5_schema_mismatch c5State c5Table (by decide)⟩

/-! ### Claim C6: absent columns at fit time -/

def c6FitTable : Table := [⟨"A", [some "x", some "x"]⟩, ⟨"B", [some "u", some "v"]⟩]

/-- C6 counterexample: the ignore name "Z" is absent from the table, yet
fit completes without raising anything — `np.setdiff1d` silently drops
absent names, and the categorical columns themselves are auto-detected
from the table, so no InvalidColumnError exists or can be raised. -/
theorem c6_counterexample :
    fit (fun _ _ => (0 : ℚ)) (some ["Z"]) c6FitTable = .ok
      ⟨[("A", "B"), ("B", "A")],
       [("A", "B", [(some "u", some "x"), (some "v", some "x")]),
        ("B", "A", [(some "x", some "u")])]⟩ := rfl

/-- C6 amended: fit auto-detects its categorical columns from the table,
and a name in the ignore set that is absent from the table is silently
ignored by the set difference: fit behaves exactly as if the name had not
been passed, and in particular raises no error on its account. -/
theorem c6_amended (sf : ℚ → ℕ → ℚ) (ig : List String) (z : String) (X : Table)
    (hz : z ∉ X.colNames) : fit sf (some (z :: ig)) X = fit sf (some ig) X :=
  fit_ignore_absent sf ig z X hz

/-- C6 amended witness with the absent ignore name "Z". -/
theorem c6_amended_witness :
    ("Z" ∉ c6FitTable.colNames) ∧
    fit (fun _ _ => (0 : ℚ)) (some ["Z"]) c6FitTable
      = fit (fun _ _ => (0 : ℚ)) (some []) c6FitTable :=
  ⟨by decide, c6_amended (fun _ _ => (0 : ℚ)) [] "Z" c6FitTable (by decide)⟩

/-! ### Claim C7: schema preservation -/

/-- C7: a successful `transform` preserves the schema: the output table has
the same column names in the same order, the same (uniform) row count, and
row identity is positional — every column that is not the target of any
fitted pair is passed through entirely unchanged.  (In this model every
column is categorical, so column dtypes are trivially preserved.) -/
theorem c7_schema_preserved (st : Fitted) (X Y : Table) (n : ℕ)
    (h1 : transform st X = .ok Y) (h2 : UniformTable X n) :
    Y.colNames = X.colNames ∧ UniformTable Y n ∧
      ∀ c, (∀ pr ∈ st.all_modes_, pr.1 ≠ c) → Y.getCol c = X.getCol c := by
  rw [transformRun_cur] at h1
  exact ⟨transformFold_colNames st.all_modes_ X Y h1,
         transformFold_uniform st.all_modes_ X Y h1 h2,
         fun c hc => transformFold_getCol_ne st.all_modes_ X Y h1 hc⟩

def c7State : Fitted := ⟨[("A", "B")], [("A", "B", [(some "u", some "a")])]⟩

def c7InTable : Table := [⟨"A", [none]⟩, ⟨"B", [some "u"]⟩]

/-- C7 witness at a concrete fitted state and uniform input table. -/
theorem c7_schema_preserved_witness :
    (transform c7State c7InTable = .ok [⟨"A", [some "a"]⟩, ⟨"B", [some "u"]⟩] ∧
      UniformTable c7InTable 1) ∧
    (Table.colNames [⟨"A", [some "a"]⟩, ⟨"B", [some "u"]⟩] = c7InTable.colNames ∧
      UniformTable [⟨"A", [some "a"]⟩, ⟨"B", [some "u"]⟩] 1 ∧
      ∀ c, (∀ pr ∈ c7State.all_modes_, pr.1 ≠ c) →
        Table.getCol [⟨"A", [some "a"]⟩, ⟨"B", [some "u"]⟩] c = c7InTable.getCol c) :=
  ⟨⟨rfl, by decide⟩,
    c7_schema_preserved c7State c7InTable [⟨"A", [some "a"]⟩, ⟨"B", [some "u"]⟩] 1
      rfl (by decide)⟩

/-! ### Claim C8: the input table is not mutated -/

/-- C8: in the `transform` body, every statement writes only the working
copy `Xc` (created by `X.copy()`); the caller's table — the `Xin` field of
the loop state — is never written, so after the loop it is unchanged by
value, and `transform` has no effect beyond producing its result. -/
theorem c8_input_not_mutated (st : Fitted) (X : Table) : (transformRun st X).Xin = X := by
  unfold transformRun
  generalize st.all_modes_ = l
  have h : ∀ (l : List (String × String × List (Val × Val))) (s : TState),
      (List.foldl transformStep s l).Xin = s.Xin := by
    intro l
    induction l with
    | nil => intro s; rfl
    | cons pr l ih => intro s; exact ih (transformStep s pr)
  exact h l (⟨X, .ok X⟩ : TState)

/-! ### Claim C9: no-op on tables without missing target values -/

/-- C9: if no target column of the fitted state has a missing value in the
input table, a successful `transform` returns a table equal to its input:
each merge-fill-drop iteration leaves the working copy unchanged. -/
theorem c9_noop (st : Fitted) (X Y : Table) (n : ℕ)
    (h1 : transform st X = .ok Y)
    (h2 : ∀ pr ∈ st.all_modes_, ∀ col ∈ X, col.name = pr.1 → none ∉ col.vals)
    (h3 : UniformTable X n) (h4 : X.colNames.Nodup) : Y = X := by
  rw [transformRun_cur] at h1
  apply transformFold_noop h3 h4 st.all_modes_ Y _ h1
  intro pr hpr tv htv
  obtain ⟨col, hcm, hcn, hcv⟩ := exists_col_of_getCol_some htv
  exact hcv ▸ h2 pr hpr col hcm hcn

def c9State : Fitted := ⟨[("A", "B")], [("A", "B", [(some "u", some "a")])]⟩

def c9Table : Table := [⟨"A", [some "q"]⟩, ⟨"B", [some "u"]⟩]

/-- C9 witness on a table with no missing target values. -/
theorem c9_noop_witness :
    (transform c9State c9Table = .ok c9Table ∧
      (∀ pr ∈ c9State.all_modes_, ∀ col ∈ c9Table, col.name = pr.1 → none ∉ col.vals) ∧
      UniformTable c9Table 1 ∧ c9Table.colNames.Nodup) ∧
    c9Table = c9Table :=
  ⟨⟨rfl, by decide, by decide, by decide⟩,
    c9_noop c9State c9Table c9Table 1 rfl (by decide) (by decide) (by decide)⟩

/-! ### Claim C10: the missing marker as a driver value -/

/-- C10: the missing marker itself acts as a driver value.  `fit` groups
with `dropna=False`, so when the driver column contains NaN the ModeMap
receives an entry keyed by NaN whose value is the mode of the target over
the rows whose driver was missing; at transform time the left merge
matches NaN keys with NaN keys, so a row with a missing target AND a
missing driver is filled with that NaN-group mode rather than left
unimputed. -/
theorem c10_nan_driver_group (X Xc : Table) (v1 v2 : String) (d t ks tv : List Val)
    (i : ℕ) (w : String)
    (hd : X.getCol v2 = some d) (ht : X.getCol v1 = some t) (hnone : none ∈ d)
    (hmode : groupMode (groupExtract t d none) = some w)
    (hks : Xc.getCol v2 = some ks) (hki : ks.get? i = some none)
    (htv : Xc.getCol v1 = some tv) (hti : tv.get? i = some none)
    (hmc : ("Mode_" ++ v1) ∉ Xc.colNames) :
    getAllModes X [(v1, v2)] = .ok [(v1, v2, modesFor t d)] ∧
    (modesFor t d).lookup none = some (some w) ∧
    ∃ Y filled, transform ⟨[(v1, v2)], [(v1, v2, modesFor t d)]⟩ Xc = .ok Y ∧
      Y.getCol v1 = some filled ∧ filled.get? i = some (some w) := by
  have hlk : (modesFor t d).lookup none = some (groupMode (groupExtract t d none)) :=
    modesFor_lookup (none_mem_sortKeys hnone)
  have hlk' : (modesFor t d).lookup none = some (some w) := by
    rw [hlk, hmode]
  have hml : modeLookup (modesFor t d) none = some w := by
    unfold modeLookup
    rw [hlk']
  refine ⟨by simp only [getAllModes, hd, ht]; rfl, hlk', ?_⟩
  have hfp : fillPair v1 v2 (modesFor t d) Xc
      = .ok (Xc.setCol v1 (tv.zipWith orFill (ks.map (modeLookup (modesFor t d))))) := by
    simp only [fillPair, hks, htv]
  have htp := (transformPair_eq_fillPair hmc).trans hfp
  have htr : transform ⟨[(v1, v2)], [(v1, v2, modesFor t d)]⟩ Xc
      = transformPair v1 v2 (modesFor t d) Xc := by
    rw [transformRun_cur]
    rfl
  refine ⟨Xc.setCol v1 (tv.zipWith orFill (ks.map (modeLookup (modesFor t d)))),
    tv.zipWith orFill (ks.map (modeLookup (modesFor t d))), ?_, ?_, ?_⟩
  · rw [htr, htp]
  · exact getCol_setCol_self _ (mem_of_getCol_some htv)
  · have hmv : (ks.map (modeLookup (modesFor t d))).get? i
        = some (modeLookup (modesFor t d) none) := getq_map ks i none hki
    have hz := getq_zipWith orFill tv (ks.map (modeLookup (modesFor t d))) i none
      (modeLookup (modesFor t d) none) hti hmv
    rw [hz, hml]
    rfl

/-- C10 witness: fitting table with driver column entirely missing, input
row with both target and driver missing; the row is filled with "p". -/
theorem c10_nan_driver_group_witness :
    (Table.getCol [⟨"A", [some "p", some "p"]⟩, ⟨"B", [none, none]⟩] "B"
        = some [none, none] ∧
      Table.getCol [⟨"A", [some "p", some "p"]⟩, ⟨"B", [none, none]⟩] "A"
        = some [some "p", some "p"] ∧
      (none : Val) ∈ ([none, none] : List Val) ∧
      groupMode (groupExtract [some "p", some "p"] [none, none] none) = some "p" ∧
      Table.getCol [⟨"A", [none]⟩, ⟨"B", [none]⟩] "B" = some [none] ∧
      ([none] : List Val).get? 0 = some none ∧
      Table.getCol [⟨"A", [none]⟩, ⟨"B", [none]⟩] "A" = some [none] ∧
      ("Mode_" ++ "A") ∉ Table.colNames [⟨"A", [none]⟩, ⟨"B", [none]⟩]) ∧
    (getAllModes [⟨"A", [some "p", some "p"]⟩, ⟨"B", [none, none]⟩] [("A", "B")]
        = .ok [("A", "B", modesFor [some "p", some "p"] [none, none])] ∧
      (modesFor [some "p", some "p"] [none, none]).lookup none = some (some "p") ∧
      ∃ Y filled,
        transform ⟨[("A", "B")], [("A", "B", modesFor [some "p", some "p"] [none, none])]⟩
            [⟨"A", [none]⟩, ⟨"B", [none]⟩] = .ok Y ∧
          Y.getCol "A" = some filled ∧ filled.get? 0 = some (some "p")) :=
  ⟨⟨rfl, rfl, by decide, rfl, rfl, rfl, rfl, by decide⟩,
    c10_nan_driver_group [⟨"A", [some "p", some "p"]⟩, ⟨"B", [none, none]⟩]
      [⟨"A", [none]⟩, ⟨"B", [none]⟩] "A" "B" [none, none] [some "p", some "p"]
      [none] [none] 0 "p" rfl rfl (by decide) rfl rfl rfl rfl rfl (by decide)⟩
